import Mathlib

/-!
Verification of qasetool (src/qasetool): the local/remote tree diff engine
(tree.py: diff_trees, flat_diff_trees, Tree.push, Tree.perform_action,
Tree.add_node, LocalCaseNode.__init__) and the title-normalization helpers
(string.py: strip_title and friends).

Python strings are modelled as `List Char`, machine-level mutation as
explicit state passing, dictionaries as association lists with
update-in-place insertion, and fallible code (IndexError, ValueError,
exceptions escaping an apply run) as `Except`.
-/

set_option autoImplicit false

namespace Qasetool

instance exceptDecEq {ε α : Type} [DecidableEq ε] [DecidableEq α] :
    DecidableEq (Except ε α)
  | .error a, .error b =>
    if h : a = b then .isTrue (by rw [h])
    else .isFalse (fun hc => h (by injection hc))
  | .error _, .ok _ => .isFalse (fun hc => Except.noConfusion hc)
  | .ok _, .error _ => .isFalse (fun hc => Except.noConfusion hc)
  | .ok a, .ok b =>
    if h : a = b then .isTrue (by rw [h])
    else .isFalse (fun hc => h (by injection hc))

/-! ## string.py -/

/-- Python single-character indexing `s[i]` with negative-index wraparound;
`none` models an IndexError. -/
def charAt (s : List Char) (i : Int) : Option Char :=
  if 0 ≤ i ∧ i < (s.length : Int) then s.get? i.toNat
  else if -(s.length : Int) ≤ i ∧ i < 0 then s.get? ((s.length : Int) + i).toNat
  else none

/-- Python `string.count(symbol)` for a single-character needle. -/
def countC (s : List Char) (c : Char) : Nat :=
  (s.filter (· == c)).length

/-- string.py `is_balanced`. -/
def is_balanced (s : List Char) (c : Char) : Bool :=
  countC s c % 2 == 0

/-- Python `string.find(c, i)` for a single character: smallest index `≥ i`
holding `c`, or `-1`. -/
def pyFindChar (s : List Char) (c : Char) (i : Nat) : Int :=
  match (s.drop i).findIdx? (· == c) with
  | some j => ((i + j : Nat) : Int)
  | none => -1

/-- Python `string.find(pat)` for a substring: smallest match index, or `-1`. -/
def pyFindSub (s pat : List Char) : Int :=
  match ((List.range (s.length + 1)).filter (fun i => pat.isPrefixOf (s.drop i))).head? with
  | some i => (i : Int)
  | none => -1

/-- Python `string.rfind(pat)` for a substring: greatest match index, or `-1`. -/
def pyRfindSub (s pat : List Char) : Int :=
  match ((List.range (s.length + 1)).filter (fun i => pat.isPrefixOf (s.drop i))).getLast? with
  | some i => (i : Int)
  | none => -1

/-- Python `string.rfind(c, a, b)` for a single character: greatest index `i`
with `a ≤ i < b` holding `c`, or `-1`. -/
def pyRfindCharIn (s : List Char) (c : Char) (a b : Nat) : Int :=
  match ((List.range (min b s.length)).filter
      (fun i => decide (a ≤ i) && (s.getD i ' ' == c))).getLast? with
  | some i => (i : Int)
  | none => -1

/-- string.py `_get_var_boundary_positions`. -/
def get_var_boundary_positions (s : List Char) (symbol : Char) : Int × Int :=
  let var_start := pyFindSub s [symbol, '<']
  let var_end0 := pyRfindSub s ['>', symbol]
  -- compensating for search pattern length
  let var_end := if var_end0 != -1 then var_end0 + 1 else var_end0
  (var_start, var_end)

/-- string.py `_handle_variables`.  Only ever called on a non-empty string
(after the border check in `_strip_title`); on those inputs every Python
indexing operation it performs is in range, so it is modelled as total. -/
def handle_variables (s : List Char) (symbol : Char) (balanced : Bool) : List Char :=
  let start : Int := 0
  let endI : Int := (s.length : Int) - 1
  let symbol_start := pyFindChar s symbol 0
  let symbol_end := pyRfindSub s [symbol]
  let vb := get_var_boundary_positions s symbol
  let var_start := vb.1
  let var_end := vb.2
  if var_start = symbol_start ∧ var_end = symbol_end then s
  else if var_start = symbol_start ∧ symbol_start = start ∧ charAt s endI = some symbol then
    s.take (s.length - 1)                 -- string[:end]
  else if var_end = symbol_end ∧ symbol_end = endI ∧ charAt s start = some symbol then
    s.drop 1                              -- string[start+1:]
  else if balanced ∧ charAt s start = charAt s endI ∧ charAt s endI = some symbol then
    (s.take (s.length - 1)).drop 1        -- string[start+1:end]
  else s

/-- Python `string.strip(' ')`: drop spaces from both borders. -/
def strip_spaces (s : List Char) : List Char :=
  ((s.dropWhile (· == ' ')).reverse.dropWhile (· == ' ')).reverse

/-- string.py `_strip_title` for one symbol.  `Except.error ()` models the
IndexError raised by `string[start]` on the empty string. -/
def strip_title_one (s : List Char) (symbol : Char) : Except Unit (List Char) :=
  match charAt s 0 with
  | none => .error ()                     -- string[start] raises IndexError
  | some c0 =>
    let endI : Int := (s.length : Int) - 1
    if ¬ (c0 = symbol ∨ charAt s endI = some symbol) then .ok s
    else
      let balanced := is_balanced s symbol
      let s1 := handle_variables s symbol balanced
      -- variable handling might have fixed balance, hence recalculating
      let end1 : Int := (s1.length : Int) - 1
      let balanced1 := is_balanced s1 symbol
      let s2 :=
        if balanced1 = false ∧ countC s1 symbol = 1 then
          -- trailing symbol at the end or at the beginning
          if charAt s1 0 = some symbol then s1.drop 1
          else if charAt s1 end1 = some symbol then s1.take (s1.length - 1)
          else s1
        else if balanced1 = false ∧ countC s1 symbol = 3 then
          -- preserving quotes with the shortest distance, omitting the farthest
          let left_distance := pyFindChar s1 symbol 1 - 0
          let right_distance := end1 - pyRfindCharIn s1 symbol 0 (s1.length - 1)
          if left_distance > right_distance then s1.drop 1
          else s1.take (s1.length - 1)
        else if balanced1 = false ∧ countC s1 symbol > 3 then
          let vb := get_var_boundary_positions s1 symbol
          if vb.1 ≠ 0 ∧ vb.2 ≠ end1 ∧ charAt s1 0 = charAt s1 end1 ∧
              charAt s1 end1 = some symbol then
            (s1.take (s1.length - 1)).drop 1
          else s1
        else s1
      .ok (strip_spaces s2)

/-- Python whitespace test used by `str.split()`. -/
def pyIsSpace (c : Char) : Bool :=
  c == ' ' || c == '\t' || c == '\n' || c == '\r' || c == '\x0B' || c == '\x0C'

/-- Python `string.split()`: split on whitespace runs, dropping empty chunks. -/
def pySplit (s : List Char) : List (List Char) :=
  (s.splitOnP pyIsSpace).filter (· ≠ [])

/-- Python `" ".join(string.split())`. -/
def normalize_ws (s : List Char) : List Char :=
  List.intercalate [' '] (pySplit s)

/-- The per-symbol loop inside string.py `strip_title`. -/
def strip_title_loop (s : List Char) : List Char → Except Unit (List Char)
  | [] => .ok s
  | c :: cs =>
    match strip_title_one s c with
    | .error e => .error e
    | .ok s1 => strip_title_loop s1 cs

/-- string.py `strip_title`. -/
def strip_title (s : List Char) (symbols : List Char) : Except Unit (List Char) :=
  match strip_title_loop s symbols with
  | .error e => .error e
  | .ok s1 => .ok (normalize_ws s1)

/-! ## Node and action model (tree.py) -/

inductive Entity
  | repository
  | suite
  | caseE
  deriving DecidableEq

inductive Action
  | none
  | create
  | update
  | delete
  deriving DecidableEq

/-- The two ways LocalCaseNode.__init__ can fail: the explicit
`ValueError` for a nameless case, or the IndexError escaping from
`strip_title`. -/
inductive PyErr
  | valueError
  | indexError
  deriving DecidableEq

/-- Minimal model of Python `Path(s)`: the empty string normalizes to `"."`. -/
def pathOf (s : String) : String :=
  if s = "" then "." else s

/-- Python `str.replace`: non-overlapping left-to-right replacement (fuel
recursion on the remaining length keeps it kernel-reducible). -/
def replaceLoop (pat repl : List Char) : Nat → List Char → List Char
  | 0, s => s
  | _ + 1, [] => []
  | fuel + 1, c :: cs =>
    if pat ≠ [] ∧ pat.isPrefixOf (c :: cs) then
      repl ++ replaceLoop pat repl fuel ((c :: cs).drop pat.length)
    else c :: replaceLoop pat repl fuel cs

def pyReplace (s pat repl : String) : String :=
  String.mk (replaceLoop pat.toList repl.toList s.toList.length s.toList)

/-- Split a character list at every occurrence of `c` (Python `str.split(c)`). -/
def splitOnChar (c : Char) : List Char → List (List Char)
  | [] => [[]]
  | x :: xs =>
    let r := splitOnChar c xs
    if x = c then [] :: r else (x :: r.headD []) :: r.tail

/-- Python `Path.stem`: final component without its last extension. -/
def pathStem (p : String) : String :=
  let base := (splitOnChar '/' p.toList).getLastD []
  let parts := splitOnChar '.' base
  if parts.length ≤ 1 then String.mk base
  else if parts.headD [] = [] ∧ parts.length = 2 then String.mk base
  else String.mk (List.intercalate ['.'] parts.dropLast)

/-- LocalCaseNode._set_key: strip the `.feature` suffix, append `::name`
for case nodes. -/
def set_key (filepath name : String) (entity : Entity) : String :=
  let base := pyReplace filepath ".feature" ""
  if entity = .caseE then base ++ "::" ++ name else base

/-- A constructed LocalCaseNode (the attributes the claims are about;
`data`, parent and children wiring are not needed here). -/
structure LNode where
  entity : Entity
  filepath : String
  name : String
  key : String
  action : Action
  deriving DecidableEq

/-- LocalCaseNode.__init__ (tree.py).  `config.STRIP_TITLES` is threaded in
as the `strip_titles` argument. -/
def localCaseNodeInit (strip_titles : Bool) (filepath name : String)
    (entity : Entity) (action : Action) : Except PyErr LNode :=
  let fp := pathOf filepath
  if fp = "." then
    .ok { entity := .repository, filepath := fp, name := "Repository",
          key := set_key fp "Repository" .repository, action := action }
  else if entity = .suite then
    -- stem will omit the .feature extension
    .ok { entity := .suite, filepath := fp, name := pathStem fp,
          key := set_key fp (pathStem fp) .suite, action := action }
  else if entity = .caseE then
    if name = "" then .error .valueError   -- cannot create Test Case node without name
    else
      match (if strip_titles then strip_title name.toList ['\'', '"']
             else .ok name.toList) with
      | .error _ => .error .indexError
      | .ok nm =>
        .ok { entity := .caseE, filepath := fp, name := String.mk nm,
              key := set_key fp (String.mk nm) .caseE, action := action }
  else
    .ok { entity := entity, filepath := fp, name := "",
          key := set_key fp "" entity, action := action }

/-! ## Dictionaries

Python dicts are modelled as association lists: insertion updates the
existing entry in place or appends, lookup returns the first (unique)
match. -/

def lookupA {α β : Type} [DecidableEq α] : List (α × β) → α → Option β
  | [], _ => none
  | e :: es, k => if e.1 = k then some e.2 else lookupA es k

def insertA {α β : Type} [DecidableEq α] : List (α × β) → α → β → List (α × β)
  | [], k, v => [(k, v)]
  | e :: es, k, v => if e.1 = k then (k, v) :: es else e :: insertA es k v

/-! ## Tree container and diff engine (tree.py)

The merged/local tree is an arena: `nodes` indexed by position (object
identity), `key_map`/`id_map` are the two dict indices.  The remote tree,
which `diff_trees` only reads, is an inductive tree plus its own
`key_map`. -/

/-- A node of the (local / merged) tree. -/
structure MNode where
  key : String
  filepath : String
  name : String
  entity : Entity
  action : Action
  pk : Option Nat
  custom_fields : Option (List (Nat × String))
  custom_field : List (Nat × String)
  parent : Option Nat
  children : List Nat
  deriving DecidableEq

/-- The Tree container (tree.py class Tree) for the local/merged tree. -/
structure PyTree where
  nodes : List MNode
  root : Nat
  key_map : List (String × Nat)
  id_map : List (Nat × Nat)
  deriving DecidableEq

/-- The attribute record of a RemoteCaseNode. -/
structure RData where
  key : String
  filepath : String
  name : String
  entity : Entity
  pk : Option Nat
  custom_fields : Option (List (Nat × String))
  custom_field : List (Nat × String)
  action : Action
  deriving DecidableEq

mutual
inductive RTree where
  | node (d : RData) (children : RForest)
inductive RForest where
  | nil
  | cons (t : RTree) (ts : RForest)
end

/-- The Tree container holding the remote tree: its root node structure
plus its key index. -/
structure RemoteTree where
  root : RTree
  key_map : List (String × RData)

def RTree.data : RTree → RData
  | .node d _ => d

/-- Update the node at index `i` in place. -/
def updAt (ns : List MNode) (i : Nat) (f : MNode → MNode) : List MNode :=
  match ns.get? i with
  | some n => ns.set i (f n)
  | none => ns

/-- Tree.add_node: inserts into the key index unconditionally and into the
identifier index only when `getattr(node, 'pk', None)` is truthy (a pk of
`None` — or `0`, which is falsy in Python — is not indexed). -/
def add_node (t : PyTree) (nid : Nat) (node : MNode) : PyTree :=
  { t with
    key_map := insertA t.key_map node.key nid,
    id_map :=
      match node.pk with
      | some v => if v ≠ 0 then insertA t.id_map v nid else t.id_map
      | none => t.id_map }

/-- The per-entry body of the first loop of diff_trees: look the key up in
the remote key index; on a match copy pk and custom-field values and set
Update (None for the path-"." root), otherwise seed the custom-field map
from the configured defaults and set Create. -/
def loop1Upd (dflt : List (Nat × String)) (rkm : List (String × RData))
    (k : String) (n : MNode) : MNode :=
  match lookupA rkm k with
  | some r =>
    { n with pk := r.pk, custom_fields := r.custom_fields,
             custom_field := r.custom_field,
             action := if n.filepath = "." then Action.none else Action.update }
  | none =>
    { n with custom_field := dflt, action := Action.create }

/-- First loop of diff_trees: iterate the merged tree's key_map, mutating
each node in place. -/
def diffLoop1 (dflt : List (Nat × String)) (rkm : List (String × RData))
    (t : PyTree) : PyTree :=
  { t with nodes := t.key_map.foldl (fun ns e => updAt ns e.2 (loop1Upd dflt rkm e.1)) t.nodes }

/-- Body of the second loop of diff_trees for one visited remote node with
remote parent key `parentKey` (`none` for the remote root): skip if the key
already exists, otherwise copy the node without children, attach it under
the merged counterpart of its remote parent, mark it Delete and add_node it.
`Except.error ()` models the AttributeError from `node_remote.parent.key`
when the visited node has no parent. -/
def addDeleteNode (t : PyTree) (parentKey : Option String) (r : RData) :
    Except Unit PyTree :=
  match lookupA t.key_map r.key with
  | some _ => .ok t                       -- node already exists, skipping
  | none =>
    match parentKey with
    | none => .error ()
    | some pkey =>
      let parentIdx := lookupA t.key_map pkey
      let nid := t.nodes.length
      let node : MNode :=
        { key := r.key, filepath := r.filepath, name := r.name,
          entity := r.entity, action := Action.delete, pk := r.pk,
          custom_fields := r.custom_fields, custom_field := r.custom_field,
          parent := parentIdx, children := [] }
      let ns := t.nodes ++ [node]
      let ns :=
        match parentIdx with
        | some p => updAt ns p (fun pn => { pn with children := pn.children ++ [nid] })
        | none => ns
      .ok (add_node { t with nodes := ns } nid node)

mutual
/-- Second loop of diff_trees: pre-order traversal of the remote tree
(node first, then its subtrees left to right). -/
def diffLoop2 (t : PyTree) (parentKey : Option String) : RTree → Except Unit PyTree
  | .node d cs =>
    match addDeleteNode t parentKey d with
    | .error e => .error e
    | .ok t1 => diffLoop2F t1 d.key cs
def diffLoop2F (t : PyTree) (k : String) : RForest → Except Unit PyTree
  | .nil => .ok t
  | .cons c cs =>
    match diffLoop2 t (some k) c with
    | .error e => .error e
    | .ok t1 => diffLoop2F t1 k cs
end

/-- tree.py diff_trees: deep-copy the local tree (value semantics make the
copy implicit), run the match/create loop over its key_map, then the
delete loop over the remote tree in pre-order. -/
def diff_trees (dflt : List (Nat × String)) (lt : PyTree) (rt : RemoteTree) :
    Except Unit PyTree :=
  diffLoop2 (diffLoop1 dflt rt.key_map lt) none rt.root

/-- tree.py flat_diff_trees.  An operation is recorded as
(action, dict key of the node, pk): the node component of the Python tuple
is identified by its key. -/
def flat_diff_trees (lt : PyTree) (rt : RemoteTree) :
    List (Action × String × Option Nat) :=
  let ud := lt.key_map.foldl
    (fun (acc : List (Action × String × Option Nat) × List (Action × String × Option Nat)) e =>
      match lt.nodes.get? e.2 with
      | none => acc
      | some n =>
        if n.filepath = "." then acc
        else
          match lookupA rt.key_map e.1 with
          | some r => (acc.1 ++ [(Action.update, e.1, r.pk)], acc.2)
          | none => (acc.1, acc.2 ++ [(Action.create, e.1, none)]))
    ([], [])
  let to_delete := rt.key_map.foldl
    (fun acc e =>
      if e.2.filepath = "." then acc
      else
        match lookupA lt.key_map e.1 with
        | some _ => acc
        | none => acc ++ [(Action.delete, e.1, e.2.pk)])
    []
  ud.1 ++ ud.2 ++ to_delete

mutual
/-- Pre-order list of (node data, remote parent key) pairs of a remote
tree, as visited by the second loop of diff_trees. -/
def preorderPairs (parentKey : Option String) : RTree → List (RData × Option String)
  | .node d cs => (d, parentKey) :: preorderPairsF d.key cs
def preorderPairsF (k : String) : RForest → List (RData × Option String)
  | .nil => []
  | .cons c cs => preorderPairs (some k) c ++ preorderPairsF k cs
end

mutual
/-- Keys of a remote tree in pre-order. -/
def treeKeys : RTree → List String
  | .node d cs => d.key :: treeKeysF cs
def treeKeysF : RForest → List String
  | .nil => []
  | .cons c cs => treeKeys c ++ treeKeysF cs
end

/-! Concrete local/remote trees used to instantiate the diff theorems. -/

def diffWitRootNode : MNode :=
  { key := ".", filepath := ".", name := "Repository", entity := Entity.repository,
    action := Action.none, pk := none, custom_fields := none, custom_field := [],
    parent := none, children := [1] }

def diffWitANode : MNode :=
  { key := "a", filepath := "a", name := "a", entity := Entity.suite,
    action := Action.none, pk := none, custom_fields := none, custom_field := [],
    parent := some 0, children := [] }

def diffWitLocal : PyTree :=
  { nodes := [diffWitRootNode, diffWitANode], root := 0,
    key_map := [(".", 0), ("a", 1)], id_map := [] }

def diffWitRemoteRootD : RData :=
  { key := ".", filepath := ".", name := "Repository", entity := Entity.repository,
    pk := some 1, custom_fields := none, custom_field := [], action := Action.none }

def diffWitRemoteBD : RData :=
  { key := "b", filepath := "b", name := "b", entity := Entity.suite,
    pk := some 2, custom_fields := some [(7, "x")], custom_field := [(7, "x")],
    action := Action.none }

def diffWitRemote : RemoteTree :=
  { root := .node diffWitRemoteRootD (.cons (.node diffWitRemoteBD .nil) .nil),
    key_map := [(".", diffWitRemoteRootD), ("b", diffWitRemoteBD)] }

def diffWitRemoteAD : RData :=
  { key := "a", filepath := "a", name := "a", entity := Entity.suite,
    pk := some 3, custom_fields := none, custom_field := [], action := Action.none }

/-- A remote tree with the same keys as `diffWitLocal`. -/
def diffWitRemoteSame : RemoteTree :=
  { root := .node diffWitRemoteRootD (.cons (.node diffWitRemoteAD .nil) .nil),
    key_map := [(".", diffWitRemoteRootD), ("a", diffWitRemoteAD)] }

/-! Concrete trees exhibiting the flat-diff / merged-diff divergence: the
remote tree holds a case attached directly under the root, whose synthetic
filepath is "." although it is not the root. -/

def c3RootNode : MNode :=
  { key := ".", filepath := ".", name := "Repository", entity := Entity.repository,
    action := Action.none, pk := none, custom_fields := none, custom_field := [],
    parent := none, children := [] }

def c3Local : PyTree :=
  { nodes := [c3RootNode], root := 0, key_map := [(".", 0)], id_map := [] }

def c3CaseD : RData :=
  { key := ".::X", filepath := ".", name := "X", entity := Entity.caseE,
    pk := some 5, custom_fields := none, custom_field := [], action := Action.none }

def c3Remote : RemoteTree :=
  { root := .node diffWitRemoteRootD (.cons (.node c3CaseD .nil) .nil),
    key_map := [(".", diffWitRemoteRootD), (".::X", c3CaseD)] }

/-! Specification predicates for the diff engine. -/

/-- Well-formedness: key index values point into the node arena. -/
def KMapValid (t : PyTree) : Prop :=
  ∀ k v, lookupA t.key_map k = some v → v < t.nodes.length

/-- State evolution along the delete loop: existing key bindings and node
cores survive; node children only gain later-added Delete nodes. -/
def Preserves (t t' : PyTree) : Prop :=
  (∀ k v, lookupA t.key_map k = some v → lookupA t'.key_map k = some v) ∧
  (∀ i n, t.nodes.get? i = some n →
    ∃ ext, t'.nodes.get? i = some { n with children := n.children ++ ext } ∧
      ∀ j ∈ ext, ∃ mn, t'.nodes.get? j = some mn ∧ mn.action = Action.delete) ∧
  t'.root = t.root

/-- What the delete loop guarantees in the final merged tree `t'` for a
remote-only node (data `r`, remote parent key `rpk`): a copy of `r` is
indexed under its key, carries action Delete and `r`'s attributes, was
copied without `r`'s children (any children it has in `t'` are themselves
later-attached Delete copies), and hangs as a child of the merged
counterpart of `r`'s remote parent, which existed at attach time. -/
def DeletedSpec (t' : PyTree) (r : RData) (rpk : Option String) : Prop :=
  ∃ pkey nid pid n,
    rpk = some pkey ∧
    lookupA t'.key_map r.key = some nid ∧
    t'.nodes.get? nid = some n ∧
    n.action = Action.delete ∧ n.key = r.key ∧ n.filepath = r.filepath ∧
    n.pk = r.pk ∧ n.custom_fields = r.custom_fields ∧ n.custom_field = r.custom_field ∧
    n.parent = some pid ∧
    (∀ cix ∈ n.children, ∃ cn, t'.nodes.get? cix = some cn ∧ cn.action = Action.delete) ∧
    lookupA t'.key_map pkey = some pid ∧
    (∃ np, t'.nodes.get? pid = some np ∧ nid ∈ np.children)

/-- The merged tree marks key `k` with action `a`. -/
def MMark (m : PyTree) (k : String) (a : Action) : Prop :=
  ∃ nid n, lookupA m.key_map k = some nid ∧ m.nodes.get? nid = some n ∧ n.action = a

/-- The merged tree marks key `k` with action `a` and identifier `p`. -/
def MMarkPk (m : PyTree) (k : String) (a : Action) (p : Option Nat) : Prop :=
  ∃ nid n, lookupA m.key_map k = some nid ∧ m.nodes.get? nid = some n ∧
    n.action = a ∧ n.pk = p

/-! ## Apply / sync driver (Tree.push, Tree.perform_action)

For the apply claims a merged tree is any action-annotated node hierarchy;
the external write service is an oracle mapping each node to the outcome
of its write call. -/

/-- The attributes of a merged-tree node that Tree.push reads. -/
structure PData where
  key : String
  filepath : String
  entity : Entity
  action : Action
  deriving DecidableEq

mutual
inductive MTree where
  | node (d : PData) (children : MForest)
inductive MForest where
  | nil
  | cons (t : MTree) (ts : MForest)
end

def MTree.data : MTree → PData
  | .node d _ => d

def MTree.childrenF : MTree → MForest
  | .node _ f => f

mutual
/-- anytree PreOrderIter: node first, then subtrees left to right. -/
def preorderT : MTree → List PData
  | .node d f => d :: preorderF f
def preorderF : MForest → List PData
  | .nil => []
  | .cons t ts => preorderT t ++ preorderF ts
end

mutual
/-- Number of levels of the hierarchy. -/
def heightT : MTree → Nat
  | .node _ f => 1 + heightF f
def heightF : MForest → Nat
  | .nil => 0
  | .cons t ts => max (heightT t) (heightF ts)
end

mutual
/-- The nodes at depth `n`, left to right. -/
def atDepthT : MTree → Nat → List PData
  | .node d _, 0 => [d]
  | .node _ f, n + 1 => atDepthF f n
def atDepthF : MForest → Nat → List PData
  | .nil, _ => []
  | .cons t ts, n => atDepthT t n ++ atDepthF ts n
end

/-- tree.py group_nodes_by_level (LevelOrderGroupIter): breadth-first depth
groups, shallowest first. -/
def group_nodes_by_level (t : MTree) : List (List PData) :=
  (List.range (heightT t)).map (atDepthT t)

/-- The Create/Update pass of Tree.push: pre-order traversal, acting only
on nodes whose action is Create or Update. -/
def pushTraceCU (t : MTree) : List PData :=
  (preorderT t).filter fun d => d.action == Action.create || d.action == Action.update

/-- The Delete pass of Tree.push: levels from deepest to shallowest, acting
only on nodes whose action is Delete. -/
def pushTraceDel (t : MTree) : List PData :=
  ((group_nodes_by_level t).reverse.flatMap id).filter fun d => d.action == Action.delete

/-- The sequence of perform_action calls issued by Tree.push. -/
def pushTrace (t : MTree) : List PData :=
  pushTraceCU t ++ pushTraceDel t

/-- The outcome of one write call against the remote service. -/
inductive WriteResult
  | ok (pk : Nat)
  | badRequest (msg : String)
  | otherError
  deriving DecidableEq

/-- `'There are no changes' in str(err)`: substring containment. -/
def containsSub (s pat : List Char) : Bool :=
  (List.range (s.length + 1)).any fun i => pat.isPrefixOf (s.drop i)

def noChangesMsg : List Char :=
  "There are no changes".toList

/-- Tree.perform_action for a non-dry run: the path-"." root issues no
write call; otherwise the write call's BadRequestException is swallowed
exactly when its message carries the no-actual-change indication, and any
other failure propagates. -/
def perform_action (o : PData → WriteResult) (d : PData) : Except Unit Unit :=
  if (d.entity == Entity.repository || d.entity == Entity.suite) && (d.filepath == ".") then
    .ok ()                                -- root node: pk := root_suite_id, no call
  else
    match o d with
    | .ok _ => .ok ()
    | .badRequest msg =>
      if containsSub msg.toList noChangesMsg then .ok () else .error ()
    | .otherError => .error ()

/-- Running the calls of an apply pass in order: returns the calls actually
issued and whether an error propagated (halting the run). -/
def pushRun (o : PData → WriteResult) : List PData → List PData × Option Unit
  | [] => ([], none)
  | d :: ds =>
    match perform_action o d with
    | .ok _ =>
      let r := pushRun o ds
      (d :: r.1, r.2)
    | .error e => ([d], some e)

/-- Tree.push for a non-dry run, issuing the Create/Update pass then the
Delete pass, halting at the first propagating error. -/
def pushApply (o : PData → WriteResult) (t : MTree) : List PData × Option Unit :=
  pushRun o (pushTrace t)

/-! Ancestor/descendant relations on the merged tree, used to state the
ordering guarantees of Tree.push. -/

inductive ForestMem : MTree → MForest → Prop
  | head (t : MTree) (ts : MForest) : ForestMem t (.cons t ts)
  | tail {t s : MTree} {ts : MForest} : ForestMem t ts → ForestMem t (.cons s ts)

/-- `OccursAt n t s`: `s` is a subtree of `t` at depth `n`. -/
inductive OccursAt : Nat → MTree → MTree → Prop
  | refl (t : MTree) : OccursAt 0 t t
  | child {n : Nat} {c s : MTree} {d : PData} {f : MForest} :
      ForestMem c f → OccursAt n c s → OccursAt (n + 1) (.node d f) s

/-- `s` is a subtree of `t`. -/
def Occurs (t s : MTree) : Prop := ∃ n, OccursAt n t s

/-- `s` is a strict descendant of `t` (a child of `t` or below). -/
def ProperDesc (t s : MTree) : Prop :=
  ∃ c, ForestMem c t.childrenF ∧ Occurs c s

/-! Concrete merged tree used to instantiate the push-ordering theorem:
a root with a Create suite A over a Create suite B, and a Delete suite C
over a Delete suite D. -/

def pushWitData (k : String) (a : Action) : PData :=
  { key := k, filepath := k, entity := Entity.suite, action := a }

def pushWitB : MTree := .node (pushWitData "B" Action.create) .nil

def pushWitA : MTree := .node (pushWitData "A" Action.create) (.cons pushWitB .nil)

def pushWitD : MTree := .node (pushWitData "D" Action.delete) .nil

def pushWitC : MTree := .node (pushWitData "C" Action.delete) (.cons pushWitD .nil)

def pushWitRoot : MTree :=
  .node { key := ".", filepath := ".", entity := Entity.repository, action := Action.none }
    (.cons pushWitA (.cons pushWitC .nil))

/-! ## Traversal lemmas for Tree.push -/

theorem forestMem_preorder_split {c : MTree} {f : MForest} (h : ForestMem c f) :
    ∃ p q, preorderF f = p ++ preorderT c ++ q := by
  induction h with
  | head ts => exact ⟨[], preorderF ts, by simp [preorderF]⟩
  | tail h ih =>
    rename_i s2 ts2
    obtain ⟨p, q, hpq⟩ := ih
    exact ⟨preorderT s2 ++ p, q, by simp [preorderF, hpq]⟩

theorem occursAt_preorder_split {n : Nat} {t s : MTree} (h : OccursAt n t s) :
    ∃ p q, preorderT t = p ++ preorderT s ++ q := by
  induction h with
  | refl t => exact ⟨[], [], by simp⟩
  | child hm hx ih =>
    rename_i n2 c2 s2 d2 f2
    obtain ⟨p, q, hpq⟩ := ih
    obtain ⟨p2, q2, hpq2⟩ := forestMem_preorder_split hm
    exact ⟨d2 :: (p2 ++ p), q ++ q2, by simp [preorderT, hpq2, hpq]⟩

theorem occurs_preorder_split {t s : MTree} (h : Occurs t s) :
    ∃ p q, preorderT t = p ++ preorderT s ++ q := by
  obtain ⟨n, hn⟩ := h
  exact occursAt_preorder_split hn

theorem preorder_data_head (s : MTree) : ∃ rest, preorderT s = s.data :: rest := by
  cases s
  exact ⟨_, rfl⟩

theorem occurs_ancestor_split {t a b : MTree} (hOcc : Occurs t a) (hDesc : ProperDesc a b) :
    ∃ l1 l2 l3, preorderT t = l1 ++ a.data :: (l2 ++ b.data :: l3) := by
  obtain ⟨c, hc, hcb⟩ := hDesc
  obtain ⟨p, q, h1⟩ := occurs_preorder_split hOcc
  obtain ⟨p2, q2, h2⟩ := forestMem_preorder_split hc
  obtain ⟨p3, q3, h3⟩ := occurs_preorder_split hcb
  obtain ⟨rb, hrb⟩ := preorder_data_head b
  have ha : preorderT a = a.data :: preorderF a.childrenF := by cases a; rfl
  refine ⟨p, p2 ++ p3, (rb ++ q3) ++ q2 ++ q, ?_⟩
  rw [h1, ha, h2, h3, hrb]
  simp

theorem filter_split_pair {α : Type} (p : α → Bool) {l l1 l2 l3 : List α} {x y : α}
    (hl : l = l1 ++ x :: (l2 ++ y :: l3)) (hx : p x = true) (hy : p y = true) :
    ∃ m1 m2 m3, l.filter p = m1 ++ x :: (m2 ++ y :: m3) :=
  ⟨l1.filter p, l2.filter p, l3.filter p, by
    subst hl
    simp [List.filter_append, List.filter_cons, hx, hy]⟩

theorem forestMem_atDepth {c : MTree} {f : MForest} (h : ForestMem c f) {x : PData} {n : Nat}
    (hx : x ∈ atDepthT c n) : x ∈ atDepthF f n := by
  induction h with
  | head ts => exact List.mem_append_left _ hx
  | tail h ih => exact List.mem_append_right _ ih

theorem occursAt_atDepth {n : Nat} {t s : MTree} (h : OccursAt n t s) :
    s.data ∈ atDepthT t n := by
  induction h with
  | refl t => cases t; simp [atDepthT, MTree.data]
  | child hm _ ih => exact forestMem_atDepth hm ih

theorem forestMem_height {c : MTree} {f : MForest} (h : ForestMem c f) :
    heightT c ≤ heightF f := by
  induction h with
  | head ts => exact le_max_left _ _
  | tail h ih => exact le_trans ih (le_max_right _ _)

theorem occursAt_height {n : Nat} {t s : MTree} (h : OccursAt n t s) : n < heightT t := by
  induction h with
  | refl t =>
    cases t
    simp [heightT]
  | child hm _ ih =>
    have h2 := forestMem_height hm
    simp only [heightT]
    omega

theorem occursAt_trans {k : Nat} {t a : MTree} (h1 : OccursAt k t a) :
    ∀ {m : Nat} {b : MTree}, OccursAt m a b → OccursAt (k + m) t b := by
  induction h1 with
  | refl t =>
    intro m b h2
    simpa using h2
  | child hm hx ih =>
    rename_i n2 c2 s2 d2 f2
    intro m b h2
    have h3 := ih h2
    have e : n2 + 1 + m = (n2 + m) + 1 := by omega
    rw [e]
    exact OccursAt.child hm h3

theorem range_reverse_succ (m : Nat) :
    (List.range (m + 1)).reverse = m :: (List.range m).reverse := by
  rw [List.range_succ]
  simp

theorem joinRev_mem_split {α : Type} {f : Nat → List α} {y : α} {k : Nat} :
    ∀ h : Nat, k < h → y ∈ f k →
      ∃ u v, ((List.range h).reverse.map f).flatMap id = u ++ y :: v := by
  intro h
  induction h with
  | zero => intro hk; exact absurd hk (by omega)
  | succ m ih =>
    intro hk hy
    rw [range_reverse_succ]
    simp only [List.map_cons, List.flatMap_cons, id]
    by_cases hkm : k = m
    · subst hkm
      obtain ⟨u, v, huv⟩ := List.append_of_mem hy
      exact ⟨u, v ++ ((List.range k).reverse.map f).flatMap id, by rw [huv]; simp⟩
    · have hk2 : k < m := by omega
      obtain ⟨u, v, huv⟩ := ih hk2 hy
      exact ⟨f m ++ u, v, by rw [huv]; simp⟩

theorem joinRev_pair_split {α : Type} {f : Nat → List α} {x y : α} {k k' : Nat} :
    ∀ h : Nat, k < k' → k' < h → x ∈ f k' → y ∈ f k →
      ∃ l1 l2 l3, ((List.range h).reverse.map f).flatMap id = l1 ++ x :: (l2 ++ y :: l3) := by
  intro h
  induction h with
  | zero => intro _ hk'; exact absurd hk' (by omega)
  | succ m ih =>
    intro hk hk' hx hy
    rw [range_reverse_succ]
    simp only [List.map_cons, List.flatMap_cons, id]
    by_cases hk'm : k' = m
    · subst hk'm
      obtain ⟨u, v, huv⟩ := List.append_of_mem hx
      obtain ⟨u2, v2, h2⟩ := joinRev_mem_split (f := f) k' (by omega) hy
      exact ⟨u, v ++ u2, v2, by rw [huv, h2]; simp⟩
    · have hk'2 : k' < m := by omega
      obtain ⟨l1, l2, l3, h3⟩ := ih hk hk'2 hx hy
      exact ⟨f m ++ l1, l2, l3, by rw [h3]; simp⟩

/-! ## Association list lemmas -/

theorem lookupA_insertA_self {α β : Type} [DecidableEq α] (m : List (α × β)) (k : α) (v : β) :
    lookupA (insertA m k v) k = some v := by
  induction m with
  | nil => simp [insertA, lookupA]
  | cons e es ih =>
    by_cases h : e.1 = k
    · simp [insertA, h, lookupA]
    · simp [insertA, h, lookupA, ih]

theorem lookupA_insertA_ne {α β : Type} [DecidableEq α] (m : List (α × β)) (k : α) (v : β)
    (k' : α) (h : k' ≠ k) :
    lookupA (insertA m k v) k' = lookupA m k' := by
  induction m with
  | nil =>
    simp only [insertA, lookupA]
    rw [if_neg (fun he => h he.symm)]
  | cons e es ih =>
    by_cases he : e.1 = k
    · have h2 : ¬ e.1 = k' := by rw [he]; exact fun hc => h hc.symm
      simp only [insertA, if_pos he, lookupA]
      rw [if_neg (fun hc => h hc.symm), if_neg h2]
    · simp only [insertA, if_neg he, lookupA]
      by_cases he' : e.1 = k'
      · simp [he']
      · simp [he', ih]

theorem lookupA_mem {α β : Type} [DecidableEq α] {m : List (α × β)} {k : α} {v : β}
    (h : lookupA m k = some v) : (k, v) ∈ m := by
  induction m with
  | nil => simp [lookupA] at h
  | cons e es ih =>
    obtain ⟨a, b⟩ := e
    by_cases he : a = k
    · subst he
      simp only [lookupA, if_pos rfl] at h
      injection h with h2
      subst h2
      exact List.mem_cons_self _ _
    · simp only [lookupA, if_neg he] at h
      exact List.mem_cons_of_mem _ (ih h)

theorem lookupA_isSome_of_mem {α β : Type} [DecidableEq α] {m : List (α × β)} {k : α} {v : β}
    (h : (k, v) ∈ m) : (lookupA m k).isSome := by
  induction m with
  | nil => simp at h
  | cons e es ih =>
    obtain ⟨a, b⟩ := e
    by_cases he : a = k
    · simp [lookupA, he]
    · rcases List.mem_cons.mp h with h2 | h2
      · exact absurd (congrArg Prod.fst h2).symm he
      · simp only [lookupA]
        rw [if_neg he]
        exact ih h2

/-! ## Arena update lemmas -/

theorem updAt_get?_ne (ns : List MNode) (i : Nat) (f : MNode → MNode) (j : Nat) (h : i ≠ j) :
    (updAt ns i f).get? j = ns.get? j := by
  unfold updAt
  cases hn : ns.get? i with
  | none => rfl
  | some n => exact List.get?_set_ne _ _ h

theorem updAt_get?_self {ns : List MNode} {i : Nat} {n : MNode} (f : MNode → MNode)
    (h : ns.get? i = some n) : (updAt ns i f).get? i = some (f n) := by
  have hlt : i < ns.length := by
    rcases List.get?_eq_some.mp h with ⟨hl, _⟩
    exact hl
  unfold updAt
  rw [h]
  exact List.get?_set_eq_of_lt _ hlt

theorem updAt_length (ns : List MNode) (i : Nat) (f : MNode → MNode) :
    (updAt ns i f).length = ns.length := by
  unfold updAt
  cases hn : ns.get? i with
  | none => rfl
  | some n => exact List.length_set _ _ _

/-! ## First diff loop -/

theorem foldl_updAt_untouched (f : String → MNode → MNode) (es : List (String × Nat)) :
    ∀ (ns : List MNode) (nid : Nat), (∀ e ∈ es, e.2 ≠ nid) →
      (es.foldl (fun ns e => updAt ns e.2 (f e.1)) ns).get? nid = ns.get? nid := by
  induction es with
  | nil => intro ns nid _; rfl
  | cons e es ih =>
    intro ns nid h
    simp only [List.foldl_cons]
    rw [ih _ _ (fun x hx => h x (List.mem_cons_of_mem _ hx))]
    exact updAt_get?_ne _ _ _ _ (h e (List.mem_cons_self _ _))

theorem foldl_updAt_spec (f : String → MNode → MNode) (es : List (String × Nat)) :
    ∀ (ns : List MNode) (k : String) (nid : Nat) (n : MNode),
      (es.map (·.2)).Nodup → (k, nid) ∈ es → ns.get? nid = some n →
      (es.foldl (fun ns e => updAt ns e.2 (f e.1)) ns).get? nid = some (f k n) := by
  induction es with
  | nil => intro ns k nid n _ h; simp at h
  | cons e es ih =>
    intro ns k nid n hnd hmem hn
    simp only [List.foldl_cons]
    rcases List.mem_cons.mp hmem with h | h
    · subst h
      have h1 : nid ∉ es.map (·.2) := by
        simpa using (List.nodup_cons.mp hnd).1
      rw [foldl_updAt_untouched f es _ _
        (fun x hx hc => h1 (List.mem_map.mpr ⟨x, hx, hc⟩))]
      exact updAt_get?_self _ hn
    · have h1 : e.2 ∉ es.map (·.2) := by
        simpa using (List.nodup_cons.mp hnd).1
      have hne : e.2 ≠ nid :=
        fun hc => h1 (List.mem_map.mpr ⟨(k, nid), h, hc.symm⟩)
      exact ih _ k nid n (by simpa using (List.nodup_cons.mp hnd).2) h
        (by rw [updAt_get?_ne _ _ _ _ hne]; exact hn)

theorem foldl_updAt_length (f : String → MNode → MNode) (es : List (String × Nat)) :
    ∀ ns : List MNode,
      (es.foldl (fun ns e => updAt ns e.2 (f e.1)) ns).length = ns.length := by
  induction es with
  | nil => intro ns; rfl
  | cons e es ih =>
    intro ns
    simp only [List.foldl_cons]
    rw [ih, updAt_length]

theorem diffLoop1_key_map (dflt : List (Nat × String)) (rkm : List (String × RData))
    (t : PyTree) : (diffLoop1 dflt rkm t).key_map = t.key_map := rfl

theorem diffLoop1_root (dflt : List (Nat × String)) (rkm : List (String × RData))
    (t : PyTree) : (diffLoop1 dflt rkm t).root = t.root := rfl

theorem diffLoop1_length (dflt : List (Nat × String)) (rkm : List (String × RData))
    (t : PyTree) : (diffLoop1 dflt rkm t).nodes.length = t.nodes.length :=
  foldl_updAt_length _ _ _

theorem diffLoop1_spec (dflt : List (Nat × String)) (rkm : List (String × RData))
    (t : PyTree) (k : String) (nid : Nat) (n : MNode)
    (hnd : (t.key_map.map (·.2)).Nodup) (hmem : (k, nid) ∈ t.key_map)
    (hn : t.nodes.get? nid = some n) :
    (diffLoop1 dflt rkm t).nodes.get? nid = some (loop1Upd dflt rkm k n) :=
  foldl_updAt_spec _ _ _ _ _ _ hnd hmem hn

theorem diffLoop1_kvalid (dflt : List (Nat × String)) (rkm : List (String × RData))
    (t : PyTree) (hv : KMapValid t) : KMapValid (diffLoop1 dflt rkm t) := by
  intro k v h
  rw [diffLoop1_key_map] at h
  rw [diffLoop1_length]
  exact hv k v h

/-! ## Preservation along the delete loop -/

theorem preserves_self (t : PyTree) : Preserves t t :=
  ⟨fun _ _ h => h,
   fun i n h => ⟨[], by simpa using h, by simp⟩,
   rfl⟩

theorem Preserves.trans {t1 t2 t3 : PyTree} (h1 : Preserves t1 t2) (h2 : Preserves t2 t3) :
    Preserves t1 t3 := by
  obtain ⟨hk1, hn1, hr1⟩ := h1
  obtain ⟨hk2, hn2, hr2⟩ := h2
  refine ⟨fun k v h => hk2 _ _ (hk1 _ _ h), ?_, by rw [hr2, hr1]⟩
  intro i n h
  obtain ⟨e1, he1, hd1⟩ := hn1 i n h
  obtain ⟨e2, he2, hd2⟩ := hn2 i _ he1
  refine ⟨e1 ++ e2, by simpa using he2, ?_⟩
  intro j hj
  rcases List.mem_append.mp hj with hj | hj
  · obtain ⟨mn, hm, hma⟩ := hd1 j hj
    obtain ⟨e3, he3, _⟩ := hn2 j mn hm
    exact ⟨_, he3, hma⟩
  · exact hd2 j hj

theorem lookupA_insertA_cases {α β : Type} [DecidableEq α] {m : List (α × β)} {k : α}
    {v : β} {k' : α} {w : β} (h : lookupA (insertA m k v) k' = some w) :
    (k' = k ∧ w = v) ∨ (k' ≠ k ∧ lookupA m k' = some w) := by
  by_cases he : k' = k
  · subst he
    rw [lookupA_insertA_self] at h
    injection h with h2
    exact Or.inl ⟨rfl, h2.symm⟩
  · rw [lookupA_insertA_ne m k v k' he] at h
    exact Or.inr ⟨he, h⟩

/-! ## Lemmas on the body of the delete loop -/

theorem addDeleteNode_skip {t : PyTree} {pk : Option String} {r : RData} {v : Nat}
    (h : lookupA t.key_map r.key = some v) : addDeleteNode t pk r = .ok t := by
  unfold addDeleteNode
  rw [h]

theorem addDeleteNode_preserves {t : PyTree} {pk : Option String} {r : RData} {t' : PyTree}
    (h : addDeleteNode t pk r = .ok t') : Preserves t t' := by
  unfold addDeleteNode at h
  cases hk : lookupA t.key_map r.key with
  | some v =>
    rw [hk] at h
    cases h
    exact preserves_self t
  | none =>
    rw [hk] at h
    cases pk with
    | none => simp at h
    | some pkey =>
      simp only [] at h
      cases hp : lookupA t.key_map pkey with
      | none =>
        rw [hp] at h
        simp only [] at h
        injection h with h2
        subst h2
        refine ⟨?_, ?_, rfl⟩
        · intro k v hkv
          have hne : k ≠ r.key := fun hc => by rw [hc, hk] at hkv; cases hkv
          simp only [add_node]
          rw [lookupA_insertA_ne _ _ _ _ hne]
          exact hkv
        · intro i n hi
          have hilt : i < t.nodes.length := by
            rcases List.get?_eq_some.mp hi with ⟨hl, _⟩
            exact hl
          refine ⟨[], ?_, by simp⟩
          show (t.nodes ++ _).get? i = _
          rw [List.get?_append hilt, hi]
          simp
      | some p =>
        rw [hp] at h
        simp only [] at h
        injection h with h2
        subst h2
        refine ⟨?_, ?_, rfl⟩
        · intro k v hkv
          have hne : k ≠ r.key := fun hc => by rw [hc, hk] at hkv; cases hkv
          simp only [add_node]
          rw [lookupA_insertA_ne _ _ _ _ hne]
          exact hkv
        · intro i n hi
          have hilt : i < t.nodes.length := by
            rcases List.get?_eq_some.mp hi with ⟨hl, _⟩
            exact hl
          have hi1 : ∀ x : MNode, (t.nodes ++ [x]).get? i = some n := by
            intro x
            rw [List.get?_append hilt]
            exact hi
          by_cases hpi : p = i
          · subst hpi
            refine ⟨[t.nodes.length], ?_, ?_⟩
            · show (updAt (t.nodes ++ _) p _).get? p = _
              rw [updAt_get?_self _ (hi1 _)]
            · intro j hj
              have hj2 : j = t.nodes.length := by simpa using hj
              subst hj2
              refine ⟨{ key := r.key, filepath := r.filepath, name := r.name, entity := r.entity, action := Action.delete, pk := r.pk, custom_fields := r.custom_fields, custom_field := r.custom_field, parent := some p, children := [] }, ?_, rfl⟩
              show (updAt (t.nodes ++ _) p _).get? t.nodes.length = _
              rw [updAt_get?_ne _ _ _ _ (Nat.ne_of_lt hilt)]
              exact List.get?_concat_length _ _
          · refine ⟨[], ?_, by simp⟩
            show (updAt (t.nodes ++ _) p _).get? i = _
            rw [updAt_get?_ne _ _ _ _ hpi, List.get?_append hilt, hi]
            simp

theorem addDeleteNode_kvalid {t : PyTree} {pk : Option String} {r : RData} {t' : PyTree}
    (h : addDeleteNode t pk r = .ok t') (hv : KMapValid t) : KMapValid t' := by
  unfold addDeleteNode at h
  cases hk : lookupA t.key_map r.key with
  | some v =>
    rw [hk] at h
    cases h
    exact hv
  | none =>
    rw [hk] at h
    cases pk with
    | none => simp at h
    | some pkey =>
      simp only [] at h
      cases hp : lookupA t.key_map pkey with
      | none =>
        rw [hp] at h
        simp only [] at h
        injection h with h2
        subst h2
        intro k v hkv
        simp only [add_node] at hkv
        rcases lookupA_insertA_cases hkv with ⟨_, hw⟩ | ⟨_, hw⟩
        · subst hw
          simp [add_node]
        · have := hv _ _ hw
          simp only [add_node, List.length_append, List.length_singleton]
          omega
      | some p =>
        rw [hp] at h
        simp only [] at h
        injection h with h2
        subst h2
        intro k v hkv
        simp only [add_node] at hkv
        rcases lookupA_insertA_cases hkv with ⟨_, hw⟩ | ⟨_, hw⟩
        · subst hw
          simp [add_node, updAt_length]
        · have := hv _ _ hw
          simp only [add_node, updAt_length, List.length_append, List.length_singleton]
          omega

theorem addDeleteNode_no_new {t : PyTree} {pk : Option String} {r : RData} {t' : PyTree}
    {k : String} (h : addDeleteNode t pk r = .ok t')
    (hk : lookupA t.key_map k = none) (hne : k ≠ r.key) :
    lookupA t'.key_map k = none := by
  unfold addDeleteNode at h
  cases hk2 : lookupA t.key_map r.key with
  | some v =>
    rw [hk2] at h
    cases h
    exact hk
  | none =>
    rw [hk2] at h
    cases pk with
    | none => simp at h
    | some pkey =>
      simp only [] at h
      injection h with h2
      subst h2
      simp only [add_node]
      rw [lookupA_insertA_ne _ _ _ _ hne]
      exact hk

theorem addDeleteNode_key_present {t : PyTree} {pk : Option String} {r : RData} {t' : PyTree}
    (h : addDeleteNode t pk r = .ok t') : (lookupA t'.key_map r.key).isSome := by
  unfold addDeleteNode at h
  cases hk : lookupA t.key_map r.key with
  | some v =>
    rw [hk] at h
    cases h
    simp [hk]
  | none =>
    rw [hk] at h
    cases pk with
    | none => simp at h
    | some pkey =>
      simp only [] at h
      injection h with h2
      subst h2
      simp [add_node, lookupA_insertA_self]

theorem addDeleteNode_some_ok (t : PyTree) (pkey : String) (r : RData) :
    ∃ t', addDeleteNode t (some pkey) r = .ok t' := by
  unfold addDeleteNode
  cases hk : lookupA t.key_map r.key with
  | some v => exact ⟨t, rfl⟩
  | none => exact ⟨_, rfl⟩

theorem addDeleteNode_establish {t : PyTree} {pkey : String} {r : RData} {t' : PyTree}
    (hk : lookupA t.key_map r.key = none)
    (h : addDeleteNode t (some pkey) r = .ok t') (hv : KMapValid t)
    (hp : (lookupA t.key_map pkey).isSome) : DeletedSpec t' r (some pkey) := by
  obtain ⟨pid, hpid⟩ := Option.isSome_iff_exists.mp hp
  have hplt : pid < t.nodes.length := hv _ _ hpid
  have hpkne : pkey ≠ r.key := fun hc => by rw [hc, hk] at hpid; cases hpid
  unfold addDeleteNode at h
  rw [hk] at h
  simp only [] at h
  rw [hpid] at h
  simp only [] at h
  injection h with h2
  subst h2
  obtain ⟨np0, hnp0⟩ : ∃ np0, t.nodes.get? pid = some np0 := by
    cases hq : t.nodes.get? pid with
    | none =>
      have := List.get?_eq_none.mp hq
      omega
    | some x => exact ⟨x, rfl⟩
  have hnp1 : ∀ x : MNode, (t.nodes ++ [x]).get? pid = some np0 := by
    intro x
    rw [List.get?_append hplt]
    exact hnp0
  refine ⟨pkey, t.nodes.length, pid,
    { key := r.key, filepath := r.filepath, name := r.name, entity := r.entity, action := Action.delete, pk := r.pk, custom_fields := r.custom_fields, custom_field := r.custom_field, parent := some pid, children := [] },
    rfl, ?_, ?_, rfl, rfl, rfl, rfl, rfl, rfl, rfl, ?_, ?_, ?_⟩
  · simp [add_node, lookupA_insertA_self]
  · show (updAt (t.nodes ++ _) pid _).get? t.nodes.length = _
    rw [updAt_get?_ne _ _ _ _ (Nat.ne_of_lt hplt)]
    exact List.get?_concat_length _ _
  · intro cix hc
    simp at hc
  · simp only [add_node]
    rw [lookupA_insertA_ne _ _ _ _ hpkne]
    exact hpid
  · refine ⟨{ np0 with children := np0.children ++ [t.nodes.length] }, ?_, by simp⟩
    show (updAt (t.nodes ++ _) pid _).get? pid = _
    rw [updAt_get?_self _ (hnp1 _)]

theorem preserves_isSome {t t' : PyTree} (h : Preserves t t') {k : String}
    (hk : (lookupA t.key_map k).isSome) : (lookupA t'.key_map k).isSome := by
  obtain ⟨v, hv⟩ := Option.isSome_iff_exists.mp hk
  rw [h.1 _ _ hv]
  rfl

theorem DeletedSpec_mono {t t' : PyTree} {r : RData} {rpk : Option String}
    (hp : Preserves t t') (hd : DeletedSpec t r rpk) : DeletedSpec t' r rpk := by
  obtain ⟨hk, hn, _⟩ := hp
  obtain ⟨pkey, nid, pid, n, h1, h2, h3, h4, h5, h6, h7, h8, h9, h10, h11, h12,
    np, h13, h14⟩ := hd
  obtain ⟨ext, he, hdel⟩ := hn nid n h3
  obtain ⟨ext2, he2, _⟩ := hn pid np h13
  refine ⟨pkey, nid, pid, { n with children := n.children ++ ext }, h1, hk _ _ h2, he,
    h4, h5, h6, h7, h8, h9, h10, ?_, hk _ _ h12, _, he2, List.mem_append_left _ h14⟩
  intro cix hc
  rcases List.mem_append.mp hc with hc | hc
  · obtain ⟨cn, hcn, hca⟩ := h11 cix hc
    obtain ⟨ext3, he3, _⟩ := hn cix cn hcn
    exact ⟨_, he3, hca⟩
  · exact hdel cix hc

mutual
theorem pairs_key_mem : ∀ (tr : RTree) (pk : Option String) (pr : RData × Option String),
    pr ∈ preorderPairs pk tr → pr.1.key ∈ treeKeys tr
  | .node d cs, pk, pr, hpr => by
    rcases List.mem_cons.mp hpr with h | h
    · rw [h]
      exact List.mem_cons_self _ _
    · exact List.mem_cons_of_mem _ (pairsF_key_mem cs d.key pr h)
theorem pairsF_key_mem : ∀ (fr : RForest) (k : String) (pr : RData × Option String),
    pr ∈ preorderPairsF k fr → pr.1.key ∈ treeKeysF fr
  | .cons c cs, k, pr, hpr => by
    rcases List.mem_append.mp hpr with h | h
    · exact List.mem_append_left _ (pairs_key_mem c (some k) pr h)
    · exact List.mem_append_right _ (pairsF_key_mem cs k pr h)
end

mutual
theorem diffLoop2_preserves : ∀ (tr : RTree) (t : PyTree) (pk : Option String) (t' : PyTree),
    diffLoop2 t pk tr = .ok t' → Preserves t t'
  | .node d cs, t, pk, t', h => by
    unfold diffLoop2 at h
    cases had : addDeleteNode t pk d with
    | error e => rw [had] at h; exact Except.noConfusion h
    | ok t1 =>
      rw [had] at h
      exact Preserves.trans (addDeleteNode_preserves had)
        (diffLoop2F_preserves cs t1 d.key t' h)
theorem diffLoop2F_preserves : ∀ (fr : RForest) (t : PyTree) (k : String) (t' : PyTree),
    diffLoop2F t k fr = .ok t' → Preserves t t'
  | .nil, t, k, t', h => by
    cases h
    exact preserves_self t
  | .cons c cs, t, k, t', h => by
    unfold diffLoop2F at h
    cases hc1 : diffLoop2 t (some k) c with
    | error e => rw [hc1] at h; exact Except.noConfusion h
    | ok t1 =>
      rw [hc1] at h
      exact Preserves.trans (diffLoop2_preserves c t (some k) t1 hc1)
        (diffLoop2F_preserves cs t1 k t' h)
end

mutual
theorem diffLoop2_kvalid : ∀ (tr : RTree) (t : PyTree) (pk : Option String) (t' : PyTree),
    diffLoop2 t pk tr = .ok t' → KMapValid t → KMapValid t'
  | .node d cs, t, pk, t', h, hv => by
    unfold diffLoop2 at h
    cases had : addDeleteNode t pk d with
    | error e => rw [had] at h; exact Except.noConfusion h
    | ok t1 =>
      rw [had] at h
      exact diffLoop2F_kvalid cs t1 d.key t' h (addDeleteNode_kvalid had hv)
theorem diffLoop2F_kvalid : ∀ (fr : RForest) (t : PyTree) (k : String) (t' : PyTree),
    diffLoop2F t k fr = .ok t' → KMapValid t → KMapValid t'
  | .nil, t, k, t', h, hv => by
    cases h
    exact hv
  | .cons c cs, t, k, t', h, hv => by
    unfold diffLoop2F at h
    cases hc1 : diffLoop2 t (some k) c with
    | error e => rw [hc1] at h; exact Except.noConfusion h
    | ok t1 =>
      rw [hc1] at h
      exact diffLoop2F_kvalid cs t1 k t' h (diffLoop2_kvalid c t (some k) t1 hc1 hv)
end

mutual
theorem diffLoop2_no_new : ∀ (tr : RTree) (t : PyTree) (pk : Option String) (t' : PyTree)
    (k : String), diffLoop2 t pk tr = .ok t' → lookupA t.key_map k = none →
    k ∉ treeKeys tr → lookupA t'.key_map k = none
  | .node d cs, t, pk, t', k, h, hk, hmem => by
    unfold diffLoop2 at h
    cases had : addDeleteNode t pk d with
    | error e => rw [had] at h; exact Except.noConfusion h
    | ok t1 =>
      rw [had] at h
      have hne : k ≠ d.key := fun hc => hmem (hc ▸ List.mem_cons_self _ _)
      exact diffLoop2F_no_new cs t1 d.key t' k h (addDeleteNode_no_new had hk hne)
        (fun hc => hmem (List.mem_cons_of_mem _ hc))
theorem diffLoop2F_no_new : ∀ (fr : RForest) (t : PyTree) (kk : String) (t' : PyTree)
    (k : String), diffLoop2F t kk fr = .ok t' → lookupA t.key_map k = none →
    k ∉ treeKeysF fr → lookupA t'.key_map k = none
  | .nil, t, kk, t', k, h, hk, _ => by
    cases h
    exact hk
  | .cons c cs, t, kk, t', k, h, hk, hmem => by
    unfold diffLoop2F at h
    cases hc1 : diffLoop2 t (some kk) c with
    | error e => rw [hc1] at h; exact Except.noConfusion h
    | ok t1 =>
      rw [hc1] at h
      exact diffLoop2F_no_new cs t1 kk t' k h
        (diffLoop2_no_new c t (some kk) t1 k hc1 hk
          (fun hc => hmem (List.mem_append_left _ hc)))
        (fun hc => hmem (List.mem_append_right _ hc))
end

mutual
theorem diffLoop2_some_ok : ∀ (tr : RTree) (t : PyTree) (p : String),
    ∃ t', diffLoop2 t (some p) tr = .ok t'
  | .node d cs, t, p => by
    obtain ⟨t1, h1⟩ := addDeleteNode_some_ok t p d
    obtain ⟨t2, h2⟩ := diffLoop2F_some_ok cs t1 d.key
    refine ⟨t2, ?_⟩
    unfold diffLoop2
    rw [h1]
    exact h2
theorem diffLoop2F_some_ok : ∀ (fr : RForest) (t : PyTree) (k : String),
    ∃ t', diffLoop2F t k fr = .ok t'
  | .nil, t, k => ⟨t, rfl⟩
  | .cons c cs, t, k => by
    obtain ⟨t1, h1⟩ := diffLoop2_some_ok c t k
    obtain ⟨t2, h2⟩ := diffLoop2F_some_ok cs t1 k
    refine ⟨t2, ?_⟩
    unfold diffLoop2F
    rw [h1]
    exact h2
end

mutual
theorem diffLoop2_noop : ∀ (tr : RTree) (t : PyTree) (pk : Option String),
    (∀ k ∈ treeKeys tr, (lookupA t.key_map k).isSome) → diffLoop2 t pk tr = .ok t
  | .node d cs, t, pk, hall => by
    obtain ⟨v, hv⟩ := Option.isSome_iff_exists.mp (hall d.key (List.mem_cons_self _ _))
    unfold diffLoop2
    rw [addDeleteNode_skip hv]
    exact diffLoop2F_noop cs t d.key
      (fun k hk => hall k (List.mem_cons_of_mem _ hk))
theorem diffLoop2F_noop : ∀ (fr : RForest) (t : PyTree) (k : String),
    (∀ k' ∈ treeKeysF fr, (lookupA t.key_map k').isSome) → diffLoop2F t k fr = .ok t
  | .nil, t, k, _ => rfl
  | .cons c cs, t, k, hall => by
    unfold diffLoop2F
    rw [diffLoop2_noop c t (some k) (fun k' hk => hall k' (List.mem_append_left _ hk))]
    exact diffLoop2F_noop cs t k (fun k' hk => hall k' (List.mem_append_right _ hk))
end

mutual
theorem diffLoop2_deletes : ∀ (tr : RTree) (t : PyTree) (pk : Option String) (t' : PyTree),
    diffLoop2 t pk tr = .ok t' → KMapValid t → (treeKeys tr).Nodup →
    (∀ p, pk = some p → (lookupA t.key_map p).isSome) →
    ∀ pr ∈ preorderPairs pk tr, lookupA t.key_map pr.1.key = none →
      DeletedSpec t' pr.1 pr.2
  | .node d cs, t, pk, t', h, hv, hnd, hpk, pr, hpr, hmiss => by
    unfold diffLoop2 at h
    cases had : addDeleteNode t pk d with
    | error e => rw [had] at h; exact Except.noConfusion h
    | ok t1 =>
      rw [had] at h
      rcases List.mem_cons.mp hpr with hpr2 | hpr2
      · subst hpr2
        cases pk with
        | none =>
          unfold addDeleteNode at had
          rw [hmiss] at had
          simp at had
        | some pkey =>
          have hps : (lookupA t.key_map pkey).isSome := hpk pkey rfl
          have hds : DeletedSpec t1 d (some pkey) :=
            addDeleteNode_establish hmiss had hv hps
          exact DeletedSpec_mono (diffLoop2F_preserves cs t1 d.key t' h) hds
      · have hkey : pr.1.key ∈ treeKeysF cs := pairsF_key_mem cs d.key pr hpr2
        have hnedk : pr.1.key ≠ d.key := by
          intro hc
          exact (List.nodup_cons.mp hnd).1 (hc ▸ hkey)
        have hmiss1 : lookupA t1.key_map pr.1.key = none :=
          addDeleteNode_no_new had hmiss hnedk
        exact diffLoop2F_deletes cs t1 d.key t' h (addDeleteNode_kvalid had hv)
          (List.nodup_cons.mp hnd).2 (addDeleteNode_key_present had) pr hpr2 hmiss1
theorem diffLoop2F_deletes : ∀ (fr : RForest) (t : PyTree) (k : String) (t' : PyTree),
    diffLoop2F t k fr = .ok t' → KMapValid t → (treeKeysF fr).Nodup →
    (lookupA t.key_map k).isSome →
    ∀ pr ∈ preorderPairsF k fr, lookupA t.key_map pr.1.key = none →
      DeletedSpec t' pr.1 pr.2
  | .cons c cs, t, k, t', h, hv, hnd, hks, pr, hpr, hmiss => by
    unfold diffLoop2F at h
    cases hc1 : diffLoop2 t (some k) c with
    | error e => rw [hc1] at h; exact Except.noConfusion h
    | ok t1 =>
      rw [hc1] at h
      rcases List.mem_append.mp hpr with hpr2 | hpr2
      · have hds : DeletedSpec t1 pr.1 pr.2 :=
          diffLoop2_deletes c t (some k) t1 hc1 hv (List.nodup_append.mp hnd).1
            (fun p hp => by injection hp with hp; subst hp; exact hks) pr hpr2 hmiss
        exact DeletedSpec_mono (diffLoop2F_preserves cs t1 k t' h) hds
      · have hkey2 : pr.1.key ∈ treeKeysF cs := pairsF_key_mem cs k pr hpr2
        have hkc : pr.1.key ∉ treeKeys c := by
          intro hin
          exact (List.nodup_append.mp hnd).2.2 hin hkey2
        have hmiss1 : lookupA t1.key_map pr.1.key = none :=
          diffLoop2_no_new c t (some k) t1 pr.1.key hc1 hmiss hkc
        have hks1 : (lookupA t1.key_map k).isSome :=
          preserves_isSome (diffLoop2_preserves c t (some k) t1 hc1) hks
        exact diffLoop2F_deletes cs t1 k t' h
          (diffLoop2_kvalid c t (some k) t1 hc1 hv)
          (List.nodup_append.mp hnd).2.1 hks1 pr hpr2 hmiss1
end

theorem diff_trees_ok (dflt : List (Nat × String)) (lt : PyTree) (rt : RemoteTree)
    (hroot : (lookupA lt.key_map rt.root.data.key).isSome) :
    ∃ m, diff_trees dflt lt rt = .ok m := by
  cases hrt : rt.root with
  | node d cs =>
    have hroot2 : (lookupA (diffLoop1 dflt rt.key_map lt).key_map d.key).isSome := by
      rw [diffLoop1_key_map]
      have h2 : rt.root.data.key = d.key := by rw [hrt]; rfl
      rw [← h2]
      exact hroot
    obtain ⟨v, hv⟩ := Option.isSome_iff_exists.mp hroot2
    obtain ⟨t2, h2⟩ := diffLoop2F_some_ok cs (diffLoop1 dflt rt.key_map lt) d.key
    refine ⟨t2, ?_⟩
    show diffLoop2 (diffLoop1 dflt rt.key_map lt) none rt.root = .ok t2
    rw [hrt]
    unfold diffLoop2
    rw [addDeleteNode_skip hv]
    exact h2

/-! ## C1 -/

/-- C1: diff_trees returns a merged tree, a deep copy of the local tree, in
which every local-copy node whose key is in the remote key index receives
that remote node's identifier and custom-field values and action Update —
except a node at path ".", the root, which gets action None — and every
local-copy node whose key is absent from the remote key index gets action
Create with its custom-field map seeded from the configured defaults. -/
theorem diff_trees_match_create_spec (dflt : List (Nat × String)) (lt : PyTree)
    (rt : RemoteTree)
    (hnd : (lt.key_map.map (·.2)).Nodup)
    (hroot : (lookupA lt.key_map rt.root.data.key).isSome) :
    ∃ m, diff_trees dflt lt rt = .ok m ∧
      ∀ e ∈ lt.key_map, ∀ n : MNode, lt.nodes.get? e.2 = some n →
        ∃ n' : MNode, m.nodes.get? e.2 = some n' ∧
          n'.filepath = n.filepath ∧
          (match lookupA rt.key_map e.1 with
           | some r =>
             n'.pk = r.pk ∧ n'.custom_fields = r.custom_fields ∧
             n'.custom_field = r.custom_field ∧
             n'.action = (if n.filepath = "." then Action.none else Action.update)
           | none => n'.action = Action.create ∧ n'.custom_field = dflt) := by
  obtain ⟨m, hm⟩ := diff_trees_ok dflt lt rt hroot
  refine ⟨m, hm, ?_⟩
  intro e he n hn
  have hu := diffLoop1_spec dflt rt.key_map lt e.1 e.2 n hnd he hn
  obtain ⟨ext, hext, _⟩ := (diffLoop2_preserves rt.root _ none m hm).2.1 e.2 _ hu
  refine ⟨_, hext, ?_, ?_⟩
  · cases hr : lookupA rt.key_map e.1 <;> simp [loop1Upd, hr]
  · cases hr : lookupA rt.key_map e.1 with
    | some r => simp [loop1Upd, hr]
    | none => simp [loop1Upd, hr]

theorem diff_trees_match_create_spec_witness :
    ((diffWitLocal.key_map.map (·.2)).Nodup) ∧
    ((lookupA diffWitLocal.key_map diffWitRemote.root.data.key).isSome) ∧
    (∃ m, diff_trees [(5, "d")] diffWitLocal diffWitRemote = .ok m ∧
      ∀ e ∈ diffWitLocal.key_map, ∀ n : MNode, diffWitLocal.nodes.get? e.2 = some n →
        ∃ n' : MNode, m.nodes.get? e.2 = some n' ∧
          n'.filepath = n.filepath ∧
          (match lookupA diffWitRemote.key_map e.1 with
           | some r =>
             n'.pk = r.pk ∧ n'.custom_fields = r.custom_fields ∧
             n'.custom_field = r.custom_field ∧
             n'.action = (if n.filepath = "." then Action.none else Action.update)
           | none => n'.action = Action.create ∧ n'.custom_field = [(5, "d")])) :=
  ⟨by decide, by decide,
   diff_trees_match_create_spec [(5, "d")] diffWitLocal diffWitRemote
     (by decide) (by decide)⟩

/-! ## C2 -/

/-- C2: for every remote node visited in pre-order whose key is absent from
the merged tree, diff_trees copies the node without its children into the
merged tree, attaches it as a child of the merged counterpart of its remote
parent — which already exists at that moment thanks to pre-order
visitation — and marks it Delete (DeletedSpec packages exactly these
guarantees). -/
theorem diff_trees_delete_marks (dflt : List (Nat × String)) (lt : PyTree)
    (rt : RemoteTree)
    (hv : KMapValid lt)
    (hnd : (treeKeys rt.root).Nodup)
    (hroot : (lookupA lt.key_map rt.root.data.key).isSome) :
    ∃ m, diff_trees dflt lt rt = .ok m ∧
      ∀ pr ∈ preorderPairs none rt.root, lookupA lt.key_map pr.1.key = none →
        DeletedSpec m pr.1 pr.2 := by
  obtain ⟨m, hm⟩ := diff_trees_ok dflt lt rt hroot
  refine ⟨m, hm, ?_⟩
  intro pr hpr hmiss
  exact diffLoop2_deletes rt.root _ none m hm
    (diffLoop1_kvalid dflt rt.key_map lt hv) hnd
    (fun p hp => Option.noConfusion hp) pr hpr
    (by rw [diffLoop1_key_map]; exact hmiss)

theorem diff_trees_delete_marks_witness :
    (treeKeys diffWitRemote.root).Nodup ∧
    (∃ m, diff_trees [(5, "d")] diffWitLocal diffWitRemote = .ok m ∧
      ∀ pr ∈ preorderPairs none diffWitRemote.root,
        lookupA diffWitLocal.key_map pr.1.key = none →
        DeletedSpec m pr.1 pr.2) :=
  ⟨by decide,
   diff_trees_delete_marks [(5, "d")] diffWitLocal diffWitRemote
     (by
       intro k v h
       simp only [diffWitLocal, lookupA] at h
       split at h
       · injection h with h2
         show v < 2
         omega
       · split at h
         · injection h with h2
           show v < 2
           omega
         · cases h)
     (by decide) (by decide)⟩

/-! ## C6 -/

/-- C6: diffing a remote tree against a local tree with identical structure
and identical keys produces a merged tree with no added nodes, in which the
root carries action None and every other node carries action Update; no
node carries Create or Delete. -/
theorem diff_trees_identical_keys (dflt : List (Nat × String)) (lt : PyTree)
    (rt : RemoteTree)
    (hnd : (lt.key_map.map (·.2)).Nodup)
    (hiff : ∀ k, (lookupA lt.key_map k).isSome ↔ (lookupA rt.key_map k).isSome)
    (htk : ∀ k ∈ treeKeys rt.root, (lookupA rt.key_map k).isSome)
    (hcov : ∀ i, i < lt.nodes.length → ∃ k, (k, i) ∈ lt.key_map)
    (hwfk : ∀ e ∈ lt.key_map, ∀ n : MNode, lt.nodes.get? e.2 = some n →
      (n.filepath = "." ↔ e.2 = lt.root)) :
    ∃ m, diff_trees dflt lt rt = .ok m ∧ m.nodes.length = lt.nodes.length ∧
      m.root = lt.root ∧
      ∀ i (n' : MNode), m.nodes.get? i = some n' →
        n'.action = (if i = lt.root then Action.none else Action.update) := by
  have hnoop : diffLoop2 (diffLoop1 dflt rt.key_map lt) none rt.root =
      .ok (diffLoop1 dflt rt.key_map lt) := by
    apply diffLoop2_noop
    intro k hk
    rw [diffLoop1_key_map]
    exact (hiff k).mpr (htk k hk)
  refine ⟨diffLoop1 dflt rt.key_map lt, hnoop, diffLoop1_length _ _ _,
    diffLoop1_root _ _ _, ?_⟩
  intro i n' hget
  have hilt : i < lt.nodes.length := by
    rcases List.get?_eq_some.mp hget with ⟨hl, _⟩
    rw [diffLoop1_length] at hl
    exact hl
  obtain ⟨k, hk⟩ := hcov i hilt
  obtain ⟨n, hn⟩ : ∃ n, lt.nodes.get? i = some n := by
    cases hq : lt.nodes.get? i with
    | none =>
      have := List.get?_eq_none.mp hq
      omega
    | some x => exact ⟨x, rfl⟩
  have hu := diffLoop1_spec dflt rt.key_map lt k i n hnd hk hn
  rw [hget] at hu
  injection hu with hu
  obtain ⟨r, hr⟩ := Option.isSome_iff_exists.mp
    ((hiff k).mp (lookupA_isSome_of_mem hk))
  have hfp := hwfk (k, i) hk n hn
  rw [hu]
  simp only [loop1Upd, hr]
  by_cases hroot : i = lt.root
  · simp [hroot, hfp.mpr hroot]
  · have : ¬ n.filepath = "." := fun hc => hroot (hfp.mp hc)
    simp [hroot, this]

theorem diff_trees_identical_keys_witness :
    ((diffWitLocal.key_map.map (·.2)).Nodup) ∧
    (∃ m, diff_trees [(5, "d")] diffWitLocal diffWitRemoteSame = .ok m ∧
      m.nodes.length = diffWitLocal.nodes.length ∧
      m.root = diffWitLocal.root ∧
      ∀ i (n' : MNode), m.nodes.get? i = some n' →
        n'.action = (if i = diffWitLocal.root then Action.none else Action.update)) :=
  ⟨by decide,
   diff_trees_identical_keys [(5, "d")] diffWitLocal diffWitRemoteSame
     (by decide)
     (by
       intro k
       simp only [diffWitLocal, diffWitRemoteSame, lookupA]
       split
       · simp
       · split
         · simp
         · simp)
     (by decide)
     (by
       intro i hi
       have h2 : i < 2 := by simpa [diffWitLocal] using hi
       have h3 : i = 0 ∨ i = 1 := by omega
       rcases h3 with rfl | rfl
       · exact ⟨".", by decide⟩
       · exact ⟨"a", by decide⟩)
     (by
       intro e he n hn
       have he2 : e = (".", 0) ∨ e = ("a", 1) := by simpa [diffWitLocal] using he
       rcases he2 with rfl | rfl
       · have : n = diffWitRootNode := by
           have := hn
           simp [diffWitLocal] at this
           exact this.symm
         subst this
         decide
       · have : n = diffWitANode := by
           have := hn
           simp [diffWitLocal] at this
           exact this.symm
         subst this
         decide)⟩

/-! ## Flat diff characterization -/

theorem lookupA_eq_of_mem_nodup {α β : Type} [DecidableEq α] {m : List (α × β)}
    (hnd : (m.map (·.1)).Nodup) {k : α} {v : β} (h : (k, v) ∈ m) :
    lookupA m k = some v := by
  induction m with
  | nil => simp at h
  | cons e es ih =>
    have h1 : e.1 ∉ es.map (·.1) := by
      simpa using (List.nodup_cons.mp hnd).1
    rcases List.mem_cons.mp h with h2 | h2
    · subst h2
      simp [lookupA]
    · have hne : ¬ e.1 = k :=
        fun hc => h1 (List.mem_map.mpr ⟨(k, v), h2, hc.symm⟩)
      simp only [lookupA, if_neg hne]
      exact ih (by simpa using (List.nodup_cons.mp hnd).2) h2

theorem flatUpd_mem (lt : PyTree) (rt : RemoteTree) (es : List (String × Nat)) :
    ∀ (acc : List (Action × String × Option Nat) × List (Action × String × Option Nat))
      (x : Action × String × Option Nat),
    (x ∈ (es.foldl
      (fun acc e =>
        match lt.nodes.get? e.2 with
        | none => acc
        | some n =>
          if n.filepath = "." then acc
          else
            match lookupA rt.key_map e.1 with
            | some r => (acc.1 ++ [(Action.update, e.1, r.pk)], acc.2)
            | none => (acc.1, acc.2 ++ [(Action.create, e.1, none)])) acc).1 ↔
      x ∈ acc.1 ∨ ∃ e ∈ es, ∃ n : MNode, lt.nodes.get? e.2 = some n ∧
        ¬ n.filepath = "." ∧
        ∃ r, lookupA rt.key_map e.1 = some r ∧ x = (Action.update, e.1, r.pk)) ∧
    (x ∈ (es.foldl
      (fun acc e =>
        match lt.nodes.get? e.2 with
        | none => acc
        | some n =>
          if n.filepath = "." then acc
          else
            match lookupA rt.key_map e.1 with
            | some r => (acc.1 ++ [(Action.update, e.1, r.pk)], acc.2)
            | none => (acc.1, acc.2 ++ [(Action.create, e.1, none)])) acc).2 ↔
      x ∈ acc.2 ∨ ∃ e ∈ es, ∃ n : MNode, lt.nodes.get? e.2 = some n ∧
        ¬ n.filepath = "." ∧
        lookupA rt.key_map e.1 = none ∧ x = (Action.create, e.1, (none : Option Nat))) := by
  induction es with
  | nil => intro acc x; simp
  | cons e es ih =>
    intro acc x
    simp only [List.foldl_cons]
    cases hg : lt.nodes.get? e.2 with
    | none =>
      have hg2 : lt.nodes[e.2]? = none := by
        rw [← List.get?_eq_getElem?]
        exact hg
      refine ⟨?_, ?_⟩
      · rw [(ih acc x).1]
        simp [List.mem_cons, hg, hg2]
        all_goals tauto
      · rw [(ih acc x).2]
        simp [List.mem_cons, hg, hg2]
        all_goals tauto
    | some n =>
      have hg2 : lt.nodes[e.2]? = some n := by
        rw [← List.get?_eq_getElem?]
        exact hg
      by_cases hfp : n.filepath = "."
      · simp only [hg, if_pos hfp]
        refine ⟨?_, ?_⟩
        · rw [(ih acc x).1]
          simp [List.mem_cons, hg, hg2, hfp]
          all_goals tauto
        · rw [(ih acc x).2]
          simp [List.mem_cons, hg, hg2, hfp]
          all_goals tauto
      · cases hr : lookupA rt.key_map e.1 with
        | some r =>
          simp only [hg, if_neg hfp, hr]
          refine ⟨?_, ?_⟩
          · rw [(ih _ x).1]
            simp [List.mem_cons, List.mem_append, hg, hg2, hfp, hr]
            all_goals tauto
          · rw [(ih _ x).2]
            simp [List.mem_cons, hg, hg2, hfp, hr]
            all_goals tauto
        | none =>
          simp only [hg, if_neg hfp, hr]
          refine ⟨?_, ?_⟩
          · rw [(ih _ x).1]
            simp [List.mem_cons, hg, hg2, hfp, hr]
            all_goals tauto
          · rw [(ih _ x).2]
            simp [List.mem_cons, List.mem_append, hg, hg2, hfp, hr]
            all_goals tauto

theorem flatDel_mem (lt : PyTree) (es : List (String × RData)) :
    ∀ (acc : List (Action × String × Option Nat)) (x : Action × String × Option Nat),
    x ∈ es.foldl
      (fun acc e =>
        if e.2.filepath = "." then acc
        else
          match lookupA lt.key_map e.1 with
          | some _ => acc
          | none => acc ++ [(Action.delete, e.1, e.2.pk)]) acc ↔
      x ∈ acc ∨ ∃ e ∈ es, ¬ e.2.filepath = "." ∧ lookupA lt.key_map e.1 = none ∧
        x = (Action.delete, e.1, e.2.pk) := by
  induction es with
  | nil => intro acc x; simp
  | cons e es ih =>
    intro acc x
    simp only [List.foldl_cons]
    by_cases hfp : e.2.filepath = "."
    · simp only [if_pos hfp]
      rw [ih acc x]
      simp [List.mem_cons, hfp]
      all_goals tauto
    · cases hl : lookupA lt.key_map e.1 with
      | some v =>
        simp only [if_neg hfp, hl]
        rw [ih acc x]
        simp [List.mem_cons, hfp, hl]
        all_goals tauto
      | none =>
        simp only [if_neg hfp, hl]
        rw [ih _ x]
        simp [List.mem_cons, List.mem_append, hfp, hl]
        all_goals tauto

mutual
theorem key_pairs_exists : ∀ (tr : RTree) (pk : Option String) (k : String),
    k ∈ treeKeys tr → ∃ pr ∈ preorderPairs pk tr, pr.1.key = k
  | .node d cs, pk, k, hk => by
    rcases List.mem_cons.mp hk with h | h
    · exact ⟨(d, pk), List.mem_cons_self _ _, h.symm⟩
    · obtain ⟨pr, hpr, he⟩ := keyF_pairs_exists cs d.key k h
      exact ⟨pr, List.mem_cons_of_mem _ hpr, he⟩
theorem keyF_pairs_exists : ∀ (fr : RForest) (kk k : String),
    k ∈ treeKeysF fr → ∃ pr ∈ preorderPairsF kk fr, pr.1.key = k
  | .cons c cs, kk, k, hk => by
    rcases List.mem_append.mp hk with h | h
    · obtain ⟨pr, hpr, he⟩ := key_pairs_exists c (some kk) k h
      exact ⟨pr, List.mem_append_left _ hpr, he⟩
    · obtain ⟨pr, hpr, he⟩ := keyF_pairs_exists cs kk k h
      exact ⟨pr, List.mem_append_right _ hpr, he⟩
end

theorem loop1Upd_ne_delete (dflt : List (Nat × String)) (rkm : List (String × RData))
    (k : String) (n : MNode) : (loop1Upd dflt rkm k n).action ≠ Action.delete := by
  cases hr : lookupA rkm k with
  | some r =>
    simp only [loop1Upd, hr]
    split <;> simp
  | none => simp [loop1Upd, hr]

theorem loop1Upd_update_iff (dflt : List (Nat × String)) (rkm : List (String × RData))
    (k : String) (n : MNode) :
    (loop1Upd dflt rkm k n).action = Action.update ↔
      ¬ n.filepath = "." ∧ (lookupA rkm k).isSome := by
  cases hr : lookupA rkm k with
  | some r =>
    simp only [loop1Upd, hr]
    split <;> simp_all
  | none => simp [loop1Upd, hr]

theorem loop1Upd_create_iff (dflt : List (Nat × String)) (rkm : List (String × RData))
    (k : String) (n : MNode) :
    (loop1Upd dflt rkm k n).action = Action.create ↔ lookupA rkm k = none := by
  cases hr : lookupA rkm k with
  | some r =>
    simp only [loop1Upd, hr]
    split <;> simp
  | none => simp [loop1Upd, hr]

theorem loop1Upd_pk (dflt : List (Nat × String)) (rkm : List (String × RData))
    (k : String) (n : MNode) {r : RData} (hr : lookupA rkm k = some r) :
    (loop1Upd dflt rkm k n).pk = r.pk := by
  simp [loop1Upd, hr]

theorem loop1Upd_filepath (dflt : List (Nat × String)) (rkm : List (String × RData))
    (k : String) (n : MNode) : (loop1Upd dflt rkm k n).filepath = n.filepath := by
  cases hr : lookupA rkm k <;> simp [loop1Upd, hr]

/-- A node of the local copy, seen in the final merged tree. -/
theorem diff_merged_local (dflt : List (Nat × String)) (lt : PyTree) (rt : RemoteTree)
    {m : PyTree} (hm : diff_trees dflt lt rt = .ok m)
    (hndv : (lt.key_map.map (·.2)).Nodup) (hv : KMapValid lt) {k : String} {nid : Nat}
    (hl : lookupA lt.key_map k = some nid) :
    ∃ (n : MNode) (ext : List Nat), lt.nodes.get? nid = some n ∧
      lookupA m.key_map k = some nid ∧
      m.nodes.get? nid = some { loop1Upd dflt rt.key_map k n with
        children := (loop1Upd dflt rt.key_map k n).children ++ ext } := by
  have hnid : nid < lt.nodes.length := hv _ _ hl
  obtain ⟨n, hn⟩ : ∃ n, lt.nodes.get? nid = some n := by
    cases hq : lt.nodes.get? nid with
    | none =>
      have := List.get?_eq_none.mp hq
      omega
    | some x => exact ⟨x, rfl⟩
  have hu := diffLoop1_spec dflt rt.key_map lt k nid n hndv (lookupA_mem hl) hn
  have P := diffLoop2_preserves rt.root _ none m hm
  obtain ⟨ext, he, _⟩ := P.2.1 nid _ hu
  have hkm : lookupA m.key_map k = some nid :=
    P.1 k nid (by rw [diffLoop1_key_map]; exact hl)
  exact ⟨n, ext, hn, hkm, he⟩

/-- A key bound in the merged tree but absent locally is a remote key. -/
theorem diff_merged_backward (dflt : List (Nat × String)) (lt : PyTree) (rt : RemoteTree)
    {m : PyTree} (hm : diff_trees dflt lt rt = .ok m) {k : String} {nid : Nat}
    (hl : lookupA lt.key_map k = none) (hmk : lookupA m.key_map k = some nid) :
    k ∈ treeKeys rt.root := by
  by_contra hmem
  have h2 := diffLoop2_no_new rt.root _ none m k hm
    (by rw [diffLoop1_key_map]; exact hl) hmem
  rw [h2] at hmk
  cases hmk

/-- What diff_trees guarantees for remote-only nodes. -/
theorem diff_deleted_spec (dflt : List (Nat × String)) (lt : PyTree) (rt : RemoteTree)
    {m : PyTree} (hm : diff_trees dflt lt rt = .ok m)
    (hv : KMapValid lt) (hrnd : (treeKeys rt.root).Nodup) :
    ∀ pr ∈ preorderPairs none rt.root, lookupA lt.key_map pr.1.key = none →
      DeletedSpec m pr.1 pr.2 := by
  intro pr hpr hmiss
  exact diffLoop2_deletes rt.root _ none m hm
    (diffLoop1_kvalid dflt rt.key_map lt hv) hrnd
    (fun p hp => Option.noConfusion hp) pr hpr
    (by rw [diffLoop1_key_map]; exact hmiss)

/-- A merged node under a key absent locally is a Delete copy of a remote
node with that key. -/
theorem merged_delete_of_new (dflt : List (Nat × String)) (lt : PyTree) (rt : RemoteTree)
    {m : PyTree} (hm : diff_trees dflt lt rt = .ok m)
    (hv : KMapValid lt) (hrnd : (treeKeys rt.root).Nodup) {k : String} {nid : Nat}
    {n' : MNode} (hl : lookupA lt.key_map k = none)
    (hkm : lookupA m.key_map k = some nid) (hn' : m.nodes.get? nid = some n') :
    n'.action = Action.delete ∧
      ∃ pr ∈ preorderPairs none rt.root, pr.1.key = k ∧ n'.pk = pr.1.pk := by
  have hmem := diff_merged_backward dflt lt rt hm hl hkm
  obtain ⟨pr, hpr, hprk⟩ := key_pairs_exists rt.root none k hmem
  have hds := diff_deleted_spec dflt lt rt hm hv hrnd pr hpr (by rw [hprk]; exact hl)
  obtain ⟨pkey, nid2, pid, n2, _, hlk2, hn2, ha2, _, _, hpk2, _⟩ := hds
  rw [hprk] at hlk2
  rw [hkm] at hlk2
  injection hlk2 with hlk2
  subst hlk2
  rw [hn'] at hn2
  injection hn2 with hn2
  subst hn2
  exact ⟨ha2, pr, hpr, hprk, hpk2⟩

/-- Membership in the flat diff, split by originating loop. -/
theorem flat_mem_iff (lt : PyTree) (rt : RemoteTree) (x : Action × String × Option Nat) :
    x ∈ flat_diff_trees lt rt ↔
      (∃ e ∈ lt.key_map, ∃ n : MNode, lt.nodes.get? e.2 = some n ∧ ¬ n.filepath = "." ∧
        ∃ r, lookupA rt.key_map e.1 = some r ∧ x = (Action.update, e.1, r.pk)) ∨
      (∃ e ∈ lt.key_map, ∃ n : MNode, lt.nodes.get? e.2 = some n ∧ ¬ n.filepath = "." ∧
        lookupA rt.key_map e.1 = none ∧ x = (Action.create, e.1, (none : Option Nat))) ∨
      (∃ e ∈ rt.key_map, ¬ e.2.filepath = "." ∧ lookupA lt.key_map e.1 = none ∧
        x = (Action.delete, e.1, e.2.pk)) := by
  unfold flat_diff_trees
  simp only [List.mem_append]
  rw [(flatUpd_mem lt rt lt.key_map ([], []) x).1,
    (flatUpd_mem lt rt lt.key_map ([], []) x).2,
    flatDel_mem lt rt.key_map [] x]
  simp
  exact or_assoc

theorem flat_update_mem (lt : PyTree) (rt : RemoteTree) (k : String) (p : Option Nat) :
    (Action.update, k, p) ∈ flat_diff_trees lt rt ↔
      ∃ e ∈ lt.key_map, e.1 = k ∧ ∃ n : MNode, lt.nodes.get? e.2 = some n ∧
        ¬ n.filepath = "." ∧ ∃ r, lookupA rt.key_map k = some r ∧ r.pk = p := by
  rw [flat_mem_iff]
  constructor
  · rintro (⟨e, he, n, hn, hfp, r, hr, hx⟩ | ⟨e, he, n, hn, hfp, hr, hx⟩ |
      ⟨e, he, hfp, hl, hx⟩)
    · simp only [Prod.mk.injEq] at hx
      obtain ⟨-, hk, hp⟩ := hx
      subst hk
      exact ⟨e, he, rfl, n, hn, hfp, r, hr, hp.symm⟩
    · simp at hx
    · simp at hx
  · rintro ⟨e, he, hek, n, hn, hfp, r, hr, hp⟩
    subst hek
    exact Or.inl ⟨e, he, n, hn, hfp, r, hr, by rw [hp]⟩

theorem flat_create_mem (lt : PyTree) (rt : RemoteTree) (k : String) (p : Option Nat) :
    (Action.create, k, p) ∈ flat_diff_trees lt rt ↔
      p = none ∧ ∃ e ∈ lt.key_map, e.1 = k ∧ ∃ n : MNode, lt.nodes.get? e.2 = some n ∧
        ¬ n.filepath = "." ∧ lookupA rt.key_map k = none := by
  rw [flat_mem_iff]
  constructor
  · rintro (⟨e, he, n, hn, hfp, r, hr, hx⟩ | ⟨e, he, n, hn, hfp, hr, hx⟩ |
      ⟨e, he, hfp, hl, hx⟩)
    · simp at hx
    · simp only [Prod.mk.injEq] at hx
      obtain ⟨-, hk, hp⟩ := hx
      subst hk
      exact ⟨hp, e, he, rfl, n, hn, hfp, hr⟩
    · simp at hx
  · rintro ⟨hp, e, he, hek, n, hn, hfp, hr⟩
    subst hek
    subst hp
    exact Or.inr (Or.inl ⟨e, he, n, hn, hfp, hr, rfl⟩)

theorem flat_delete_mem (lt : PyTree) (rt : RemoteTree) (k : String) (p : Option Nat) :
    (Action.delete, k, p) ∈ flat_diff_trees lt rt ↔
      ∃ e ∈ rt.key_map, e.1 = k ∧ ¬ e.2.filepath = "." ∧
        lookupA lt.key_map k = none ∧ e.2.pk = p := by
  rw [flat_mem_iff]
  constructor
  · rintro (⟨e, he, n, hn, hfp, r, hr, hx⟩ | ⟨e, he, n, hn, hfp, hr, hx⟩ |
      ⟨e, he, hfp, hl, hx⟩)
    · simp at hx
    · simp at hx
    · simp only [Prod.mk.injEq] at hx
      obtain ⟨-, hk, hp⟩ := hx
      subst hk
      exact ⟨e, he, rfl, hfp, hl, hp.symm⟩
  · rintro ⟨e, he, hek, hfp, hl, hp⟩
    subst hek
    exact Or.inr (Or.inr ⟨e, he, hfp, hl, by rw [hp]⟩)


/-! ## C3 -/

/-- C3 (amended): flat_diff_trees and diff_trees classify keys identically
for Update and Create, and for Delete on remote nodes whose synthetic
filepath is not "."; remote nodes with filepath "." (cases attached
directly under the root) are omitted from the flat delete list although
the merged tree marks them Delete, and the root key "." appears in no
flat-diff list. -/
theorem flat_vs_merged_classification (dflt : List (Nat × String)) (lt : PyTree)
    (rt : RemoteTree)
    (hndv : (lt.key_map.map (·.2)).Nodup)
    (hndk : (lt.key_map.map (·.1)).Nodup)
    (hv : KMapValid lt)
    (hrnd : (treeKeys rt.root).Nodup)
    (hroot : (lookupA lt.key_map rt.root.data.key).isSome)
    (hdotl : ∀ e ∈ lt.key_map, ∀ n : MNode, lt.nodes.get? e.2 = some n →
      (n.filepath = "." ↔ e.1 = "."))
    (hdotr : (lookupA rt.key_map ".").isSome)
    (hdotr2 : ∀ e ∈ rt.key_map, e.1 = "." → e.2.filepath = ".")
    (hwfr1 : ∀ e ∈ rt.key_map, ∃ pr ∈ preorderPairs none rt.root,
      pr.1 = e.2 ∧ e.2.key = e.1)
    (hwfr2 : ∀ pr ∈ preorderPairs none rt.root, lookupA rt.key_map pr.1.key = some pr.1) :
    ∃ m, diff_trees dflt lt rt = .ok m ∧
      (∀ (a : Action) (q : Option Nat), (a, ".", q) ∉ flat_diff_trees lt rt) ∧
      ∀ (k : String) (p : Option Nat),
        ((Action.update, k, p) ∈ flat_diff_trees lt rt ↔ MMarkPk m k Action.update p) ∧
        ((Action.create, k, p) ∈ flat_diff_trees lt rt ↔
          (MMark m k Action.create ∧ p = none)) ∧
        ((Action.delete, k, p) ∈ flat_diff_trees lt rt ↔
          (MMarkPk m k Action.delete p ∧
            ∃ r, lookupA rt.key_map k = some r ∧ ¬ r.filepath = ".")) := by
  obtain ⟨m, hm⟩ := diff_trees_ok dflt lt rt hroot
  refine ⟨m, hm, ?_, ?_⟩
  · intro a q hmem
    rw [flat_mem_iff] at hmem
    rcases hmem with ⟨e, he, n, hn, hfp, r, hr, hx⟩ | ⟨e, he, n, hn, hfp, hr, hx⟩ |
      ⟨e, he, hfp, hl, hx⟩
    · simp only [Prod.mk.injEq] at hx
      exact hfp ((hdotl e he n hn).mpr hx.2.1.symm)
    · simp only [Prod.mk.injEq] at hx
      exact hfp ((hdotl e he n hn).mpr hx.2.1.symm)
    · simp only [Prod.mk.injEq] at hx
      exact hfp (hdotr2 e he hx.2.1.symm)
  · intro k p
    refine ⟨?_, ?_, ?_⟩
    · rw [flat_update_mem]
      constructor
      · rintro ⟨e, he, hek, n, hn, hfp, r, hr, hp⟩
        have hl : lookupA lt.key_map k = some e.2 := by
          rw [← hek]
          exact lookupA_eq_of_mem_nodup hndk he
        obtain ⟨n2, ext, hn2, hkm, hnode⟩ := diff_merged_local dflt lt rt hm hndv hv hl
        rw [hn] at hn2
        injection hn2 with hn2
        subst hn2
        refine ⟨e.2, _, hkm, hnode, ?_, ?_⟩
        · show (loop1Upd dflt rt.key_map k n).action = Action.update
          rw [loop1Upd_update_iff]
          exact ⟨hfp, by rw [hr]; rfl⟩
        · show (loop1Upd dflt rt.key_map k n).pk = p
          rw [loop1Upd_pk dflt rt.key_map k n hr, hp]
      · rintro ⟨nid, n', hkm, hn', hact, hpk⟩
        cases hl : lookupA lt.key_map k with
        | none =>
          obtain ⟨hdel, -⟩ := merged_delete_of_new dflt lt rt hm hv hrnd hl hkm hn'
          rw [hact] at hdel
          simp at hdel
        | some nid2 =>
          obtain ⟨n, ext, hn, hkm2, hnode⟩ := diff_merged_local dflt lt rt hm hndv hv hl
          rw [hkm] at hkm2
          injection hkm2 with he2
          subst he2
          rw [hn'] at hnode
          injection hnode with hnode
          subst hnode
          have hact2 : (loop1Upd dflt rt.key_map k n).action = Action.update := hact
          have hupd := (loop1Upd_update_iff dflt rt.key_map k n).mp hact2
          obtain ⟨r, hr⟩ := Option.isSome_iff_exists.mp hupd.2
          refine ⟨(k, nid), lookupA_mem hl, rfl, n, hn, hupd.1, r, hr, ?_⟩
          have hpk2 : (loop1Upd dflt rt.key_map k n).pk = p := hpk
          rw [loop1Upd_pk dflt rt.key_map k n hr] at hpk2
          exact hpk2
    · rw [flat_create_mem]
      constructor
      · rintro ⟨hp, e, he, hek, n, hn, hfp, hr⟩
        have hl : lookupA lt.key_map k = some e.2 := by
          rw [← hek]
          exact lookupA_eq_of_mem_nodup hndk he
        obtain ⟨n2, ext, hn2, hkm, hnode⟩ := diff_merged_local dflt lt rt hm hndv hv hl
        rw [hn] at hn2
        injection hn2 with hn2
        subst hn2
        refine ⟨⟨e.2, _, hkm, hnode, ?_⟩, hp⟩
        show (loop1Upd dflt rt.key_map k n).action = Action.create
        rw [loop1Upd_create_iff]
        exact hr
      · rintro ⟨⟨nid, n', hkm, hn', hact⟩, hp⟩
        cases hl : lookupA lt.key_map k with
        | none =>
          obtain ⟨hdel, -⟩ := merged_delete_of_new dflt lt rt hm hv hrnd hl hkm hn'
          rw [hact] at hdel
          simp at hdel
        | some nid2 =>
          obtain ⟨n, ext, hn, hkm2, hnode⟩ := diff_merged_local dflt lt rt hm hndv hv hl
          rw [hkm] at hkm2
          injection hkm2 with he2
          subst he2
          rw [hn'] at hnode
          injection hnode with hnode
          subst hnode
          have hact2 : (loop1Upd dflt rt.key_map k n).action = Action.create := hact
          have hr := (loop1Upd_create_iff dflt rt.key_map k n).mp hact2
          have hfp : ¬ n.filepath = "." := by
            intro hc
            have hk2 := (hdotl (k, nid) (lookupA_mem hl) n hn).mp hc
            have hk3 : k = "." := hk2
            rw [hk3] at hr
            obtain ⟨r0, hr0⟩ := Option.isSome_iff_exists.mp hdotr
            rw [hr0] at hr
            cases hr
          exact ⟨hp, (k, nid), lookupA_mem hl, rfl, n, hn, hfp, hr⟩
    · rw [flat_delete_mem]
      constructor
      · rintro ⟨e, he, hek, hfp, hl, hp⟩
        obtain ⟨pr, hpr, hpre, hprk⟩ := hwfr1 e he
        have hprkey : pr.1.key = k := by rw [hpre, hprk, hek]
        have hds := diff_deleted_spec dflt lt rt hm hv hrnd pr hpr
          (by rw [hprkey]; exact hl)
        obtain ⟨pkey, nid, pid, n, -, hlk, hn, ha, -, -, hnpk, -⟩ := hds
        constructor
        · refine ⟨nid, n, ?_, hn, ha, ?_⟩
          · rw [← hprkey]
            exact hlk
          · rw [hnpk, hpre, hp]
        · refine ⟨e.2, ?_, hfp⟩
          have h2 := hwfr2 pr hpr
          rw [hprkey, hpre] at h2
          exact h2
      · rintro ⟨⟨nid, n', hkm, hn', hact, hpk⟩, r, hr, hrfp⟩
        cases hl : lookupA lt.key_map k with
        | some nid2 =>
          obtain ⟨n, ext, hn, hkm2, hnode⟩ := diff_merged_local dflt lt rt hm hndv hv hl
          rw [hkm] at hkm2
          injection hkm2 with he2
          subst he2
          rw [hn'] at hnode
          injection hnode with hnode
          subst hnode
          have hact2 : (loop1Upd dflt rt.key_map k n).action = Action.delete := hact
          exact absurd hact2 (loop1Upd_ne_delete dflt rt.key_map k n)
        | none =>
          obtain ⟨-, pr, hpr, hprk, hprpk⟩ :=
            merged_delete_of_new dflt lt rt hm hv hrnd hl hkm hn'
          have h2 := hwfr2 pr hpr
          rw [hprk] at h2
          rw [hr] at h2
          injection h2 with h2
          refine ⟨(k, r), lookupA_mem hr, rfl, ?_, rfl, ?_⟩
          · exact hrfp
          · rw [h2, ← hprpk, hpk]

/-- Counterexample to the original C3 claim that the flat diff and the
merged-tree diff classify every key identically: on `c3Local`/`c3Remote`
the remote case `.::X` hangs directly under the root, so its synthetic
filepath is "."; the flat diff produces no operation at all for it while
the merged tree marks it Delete with its remote identifier. -/
theorem flat_vs_merged_counterexample :
    flat_diff_trees c3Local c3Remote = ([] : List (Action × String × Option Nat)) ∧
    ∃ m, diff_trees [] c3Local c3Remote = Except.ok m ∧
      MMarkPk m ".::X" Action.delete (some 5) := by
  constructor
  · decide
  · refine ⟨_, rfl, 1, _, by decide, rfl, by decide, by decide⟩

/-- Witness instantiating the amended C3 theorem on concrete trees. -/
theorem flat_vs_merged_classification_witness :
    ∃ m, diff_trees [] diffWitLocal diffWitRemote = .ok m ∧
      (∀ (a : Action) (q : Option Nat),
        (a, ".", q) ∉ flat_diff_trees diffWitLocal diffWitRemote) ∧
      ∀ (k : String) (p : Option Nat),
        ((Action.update, k, p) ∈ flat_diff_trees diffWitLocal diffWitRemote ↔
          MMarkPk m k Action.update p) ∧
        ((Action.create, k, p) ∈ flat_diff_trees diffWitLocal diffWitRemote ↔
          (MMark m k Action.create ∧ p = none)) ∧
        ((Action.delete, k, p) ∈ flat_diff_trees diffWitLocal diffWitRemote ↔
          (MMarkPk m k Action.delete p ∧
            ∃ r, lookupA diffWitRemote.key_map k = some r ∧ ¬ r.filepath = ".")) :=
  flat_vs_merged_classification [] diffWitLocal diffWitRemote
    (by decide) (by decide)
    (by
      intro k v h
      simp only [diffWitLocal, lookupA] at h
      split at h
      · injection h with h2
        show v < 2
        omega
      · split at h
        · injection h with h2
          show v < 2
          omega
        · cases h)
    (by decide) (by decide)
    (by
      intro e he n hn
      have he2 : e = (".", 0) ∨ e = ("a", 1) := by simpa [diffWitLocal] using he
      rcases he2 with rfl | rfl
      · have h3 : some diffWitRootNode = some n := by rw [← hn]; rfl
        injection h3 with h3
        subst h3
        decide
      · have h3 : some diffWitANode = some n := by rw [← hn]; rfl
        injection h3 with h3
        subst h3
        decide)
    (by decide) (by decide) (by decide) (by decide)

/-! ## C10 -/

theorem strip_title_one_nil (c : Char) : strip_title_one [] c = .error () := rfl

/-- C10: strip_title is total only on non-empty input: with a non-empty
symbols argument it fails on the empty string with the index error raised
by the border check at position 0, and the same failure occurs when an
earlier symbol pass reduces the working string to empty while a later
pass remains. -/
theorem strip_title_empty_fails :
    (∀ symbols : List Char, symbols ≠ [] → strip_title [] symbols = .error ()) ∧
    (∀ (s : List Char) (c : Char) (cs : List Char),
      strip_title_one s c = .ok [] → cs ≠ [] →
      strip_title_loop s (c :: cs) = .error ()) := by
  have hloop : ∀ symbols : List Char, symbols ≠ [] →
      strip_title_loop [] symbols = .error () := by
    intro symbols h
    cases symbols with
    | nil => exact absurd rfl h
    | cons c cs => simp [strip_title_loop, strip_title_one_nil]
  constructor
  · intro symbols h
    simp [strip_title, hloop symbols h]
  · intro s c cs h1 h2
    simp [strip_title_loop, h1, hloop cs h2]

theorem strip_title_empty_fails_witness :
    strip_title [] ['a'] = .error () ∧
    strip_title_loop ['\''] ['\'', '"'] = .error () :=
  ⟨strip_title_empty_fails.1 ['a'] (by decide),
   strip_title_empty_fails.2 ['\''] '\'' ['"'] (by decide) (by decide)⟩

/-! ## C7 -/

/-- C7: for a non-empty string carrying the quote symbol on at least one
border whose working form after variable handling contains the symbol
exactly three times, _strip_title compares the distance from the start to
the first interior occurrence with the distance from the last interior
occurrence to the end, and drops the border character on the
larger-distance side (the end-side border on ties), keeping the near
pair. -/
theorem strip_title_three_quotes (s : List Char) (symbol : Char)
    (hb : charAt s 0 = some symbol ∨ charAt s ((s.length : Int) - 1) = some symbol)
    (h3 : countC (handle_variables s symbol (is_balanced s symbol)) symbol = 3) :
    strip_title_one s symbol =
      .ok (strip_spaces
        (let s1 := handle_variables s symbol (is_balanced s symbol)
         let left_distance := pyFindChar s1 symbol 1 - 0
         let right_distance :=
           ((s1.length : Int) - 1) - pyRfindCharIn s1 symbol 0 (s1.length - 1)
         if left_distance > right_distance then s1.drop 1 else s1.dropLast)) := by
  cases s with
  | nil => simp [charAt] at hb
  | cons a t =>
    have hc0 : charAt (a :: t) 0 = some a := by simp [charAt]
    have hcond : a = symbol ∨ charAt (a :: t) (((a :: t).length : Int) - 1) = some symbol := by
      rcases hb with h | h
      · rw [hc0] at h
        exact Or.inl (by injection h)
      · exact Or.inr h
    have hbal : is_balanced (handle_variables (a :: t) symbol (is_balanced (a :: t) symbol))
        symbol = false := by
      show (countC (handle_variables (a :: t) symbol (is_balanced (a :: t) symbol))
        symbol % 2 == 0) = false
      rw [h3]
      rfl
    simp only [strip_title_one, hc0]
    rw [if_neg (not_not_intro hcond)]
    simp only [hbal, h3, List.dropLast_eq_take]
    simp

theorem strip_title_three_quotes_witness :
    (charAt ['\'', 'a', 'b', '\'', 'c', 'd', '\''] 0 = some '\'' ∨
      charAt ['\'', 'a', 'b', '\'', 'c', 'd', '\'']
        ((['\'', 'a', 'b', '\'', 'c', 'd', '\''].length : Int) - 1) = some '\'') ∧
    countC (handle_variables ['\'', 'a', 'b', '\'', 'c', 'd', '\''] '\''
      (is_balanced ['\'', 'a', 'b', '\'', 'c', 'd', '\''] '\'')) '\'' = 3 ∧
    strip_title_one ['\'', 'a', 'b', '\'', 'c', 'd', '\''] '\'' =
      .ok (strip_spaces
        (let s1 := handle_variables ['\'', 'a', 'b', '\'', 'c', 'd', '\''] '\''
           (is_balanced ['\'', 'a', 'b', '\'', 'c', 'd', '\''] '\'')
         let left_distance := pyFindChar s1 '\'' 1 - 0
         let right_distance :=
           ((s1.length : Int) - 1) - pyRfindCharIn s1 '\'' 0 (s1.length - 1)
         if left_distance > right_distance then s1.drop 1 else s1.dropLast)) :=
  ⟨by decide, by decide,
   strip_title_three_quotes ['\'', 'a', 'b', '\'', 'c', 'd', '\''] '\'' (by decide) (by decide)⟩

/-- C9 counterexample: with title stripping enabled, the name consisting of
one double-quote pair passes the non-empty validation (it is a non-empty
string) but normalizes to the empty string, so a case node with an empty
stored name is successfully constructed — refuting the claim that every
successfully constructed case node has a non-empty name. -/
theorem localCaseNode_empty_name_counterexample :
    localCaseNodeInit true "x" "\"\"" Entity.caseE Action.none =
      .ok { entity := Entity.caseE, filepath := "x", name := "", key := "x::",
            action := Action.none } ∧
    ("\"\"" : String) ≠ "" := by
  constructor
  · decide
  · decide

/-- C9 (amended): constructing a case node (entity Case, path not ".") with
an empty name argument fails with the ValueError at construction time, so
every successfully constructed case node was given a non-empty name
argument; with title stripping disabled the stored name is that non-empty
name, while with stripping enabled the stored name can still normalize to
empty. -/
theorem localCaseNode_name_validation (st : Bool) (fp name : String) (act : Action) :
    (pathOf fp ≠ "." → localCaseNodeInit st fp "" Entity.caseE act = .error PyErr.valueError) ∧
    (∀ n : LNode, localCaseNodeInit st fp name Entity.caseE act = .ok n →
      n.entity = Entity.caseE → name ≠ "") ∧
    (∀ n : LNode, localCaseNodeInit false fp name Entity.caseE act = .ok n →
      n.entity = Entity.caseE → n.name ≠ "") := by
  refine ⟨?_, ?_, ?_⟩
  · intro hfp
    simp [localCaseNodeInit, hfp]
  · intro n h hent heq
    subst heq
    by_cases hfp : pathOf fp = "."
    · simp [localCaseNodeInit, hfp] at h
      rw [← h] at hent
      simp at hent
    · simp [localCaseNodeInit, hfp] at h
  · intro n h hent
    by_cases hfp : pathOf fp = "."
    · simp [localCaseNodeInit, hfp] at h
      rw [← h] at hent
      simp at hent
    · by_cases hnm : name = ""
      · subst hnm
        simp [localCaseNodeInit, hfp] at h
      · simp [localCaseNodeInit, hfp, hnm] at h
        rw [← h]
        simpa using fun hc => hnm (by cases name; simpa using hc)

theorem localCaseNode_name_validation_witness :
    localCaseNodeInit false "f" "" Entity.caseE Action.none = .error PyErr.valueError ∧
    ("A" : String) ≠ "" :=
  ⟨(localCaseNode_name_validation false "f" "A" Action.none).1 (by decide),
   (localCaseNode_name_validation false "f" "A" Action.none).2.1
     { entity := Entity.caseE, filepath := "f", name := "A", key := "f::A",
       action := Action.none } (by decide) rfl⟩

/-! ## C8 -/

/-- C8 counterexample: a node whose remote identifier is known but equal to
0 is not inserted into the identifier index, because the source guards the
insertion with Python truthiness of pk rather than a None check. -/
theorem add_node_pk_zero_counterexample :
    lookupA (add_node { nodes := [], root := 0, key_map := [], id_map := [] } 5
      { key := "k", filepath := "k", name := "k", entity := Entity.suite,
        action := Action.none, pk := some 0, custom_fields := none,
        custom_field := [], parent := none, children := [] }).id_map 0 = none ∧
    lookupA (add_node { nodes := [], root := 0, key_map := [], id_map := [] } 5
      { key := "k", filepath := "k", name := "k", entity := Entity.suite,
        action := Action.none, pk := some 0, custom_fields := none,
        custom_field := [], parent := none, children := [] }).key_map "k" = some 5 := by
  constructor
  · decide
  · decide

/-- C8 (amended): add_node inserts into the key index unconditionally, and
into the identifier index exactly when the node's pk is truthy (present and
nonzero); no other entry of either index changes.  The caller-guaranteed
precondition is that the key is not yet present. -/
theorem add_node_spec (t : PyTree) (nid : Nat) (node : MNode)
    (_hpre : lookupA t.key_map node.key = none) :
    lookupA (add_node t nid node).key_map node.key = some nid ∧
    (∀ k, k ≠ node.key →
      lookupA (add_node t nid node).key_map k = lookupA t.key_map k) ∧
    (∀ v, node.pk = some v → v ≠ 0 →
      lookupA (add_node t nid node).id_map v = some nid) ∧
    ((node.pk = none ∨ node.pk = some 0) → (add_node t nid node).id_map = t.id_map) ∧
    (∀ v w, node.pk = some w → v ≠ w →
      lookupA (add_node t nid node).id_map v = lookupA t.id_map v) := by
  refine ⟨?_, ?_, ?_, ?_, ?_⟩
  · simp [add_node, lookupA_insertA_self]
  · intro k hk
    simp [add_node, lookupA_insertA_ne _ _ _ _ hk]
  · intro v hv hv0
    simp [add_node, hv, hv0, lookupA_insertA_self]
  · rintro (hv | hv) <;> simp [add_node, hv]
  · intro v w hw hvw
    by_cases hw0 : w = 0
    · simp [add_node, hw, hw0]
    · simp [add_node, hw, hw0, lookupA_insertA_ne _ _ _ _ hvw]

theorem add_node_spec_witness :
    lookupA ({ nodes := [], root := 0, key_map := [], id_map := [] } : PyTree).key_map "k" =
      none ∧
    lookupA (add_node { nodes := [], root := 0, key_map := [], id_map := [] } 5
      { key := "k", filepath := "k", name := "k", entity := Entity.suite,
        action := Action.none, pk := some 7, custom_fields := none,
        custom_field := [], parent := none, children := [] }).key_map "k" = some 5 :=
  ⟨by decide,
   (add_node_spec { nodes := [], root := 0, key_map := [], id_map := [] } 5
      { key := "k", filepath := "k", name := "k", entity := Entity.suite,
        action := Action.none, pk := some 7, custom_fields := none,
        custom_field := [], parent := none, children := [] } (by decide)).1⟩

/-! ## C5 -/

/-- C5: a write call failing with a BadRequestException whose message
carries the no-actual-change indication is swallowed and treated as
success, and the run continues with the remaining nodes; any other write
failure propagates out of perform_action and the push run, halting all
remaining apply operations, with the already-issued operations left in
place. -/
theorem perform_action_error_handling :
    (∀ (o : PData → WriteResult) (d : PData) (msg : String),
      o d = .badRequest msg → containsSub msg.toList noChangesMsg = true →
      perform_action o d = .ok ()) ∧
    (∀ (o : PData → WriteResult) (d : PData) (ds : List PData),
      perform_action o d = .ok () →
      pushRun o (d :: ds) = ((pushRun o ds).1.cons d, (pushRun o ds).2)) ∧
    (∀ (o : PData → WriteResult) (pre : List PData) (d : PData) (ds : List PData),
      (∀ x ∈ pre, perform_action o x = .ok ()) →
      perform_action o d = .error () →
      pushRun o (pre ++ d :: ds) = (pre ++ [d], some ())) := by
  refine ⟨?_, ?_, ?_⟩
  · intro o d msg ho hmsg
    have hmsg' : containsSub msg.data noChangesMsg = true := hmsg
    unfold perform_action
    split
    · rfl
    · simp [ho, hmsg']
  · intro o d ds h
    simp [pushRun, h]
  · intro o pre d ds hpre hd
    induction pre with
    | nil => simp [pushRun, hd]
    | cons x xs ih =>
      have hx : perform_action o x = .ok () := hpre x (by simp)
      have ihx := ih (fun y hy => hpre y (by simp [hy]))
      simp [pushRun, hx, ihx]

/-! ## C4 -/

/-- C4: Tree.push issues its write calls in two passes with hard orderings:
a pre-order Create/Update pass in which an ancestor carrying Create or
Update is called before any descendant carrying Create or Update (so the
parent identifier is already resolved in this same pass), followed by a
deepest-to-shallowest Delete pass in which a descendant carrying Delete is
called before any ancestor carrying Delete. -/
theorem push_two_pass_ordering (t a b : MTree) (hOcc : Occurs t a) (hDesc : ProperDesc a b) :
    ((a.data.action = Action.create ∨ a.data.action = Action.update) →
     (b.data.action = Action.create ∨ b.data.action = Action.update) →
      ∃ l1 l2 l3, pushTrace t = l1 ++ a.data :: (l2 ++ b.data :: l3)) ∧
    (a.data.action = Action.delete → b.data.action = Action.delete →
      ∃ l1 l2 l3, pushTrace t = l1 ++ b.data :: (l2 ++ a.data :: l3)) := by
  constructor
  · intro ha hb
    obtain ⟨l1, l2, l3, hsplit⟩ := occurs_ancestor_split hOcc hDesc
    have hpa : (a.data.action == Action.create || a.data.action == Action.update) = true := by
      rcases ha with h | h <;> simp [h]
    have hpb : (b.data.action == Action.create || b.data.action == Action.update) = true := by
      rcases hb with h | h <;> simp [h]
    obtain ⟨m1, m2, m3, hm⟩ := filter_split_pair
      (fun d => d.action == Action.create || d.action == Action.update) hsplit hpa hpb
    refine ⟨m1, m2, m3 ++ pushTraceDel t, ?_⟩
    have h2 : pushTraceCU t = m1 ++ a.data :: (m2 ++ b.data :: m3) := hm
    simp [pushTrace, h2]
  · intro ha hb
    obtain ⟨k, hk⟩ := hOcc
    obtain ⟨c, hc, hcb⟩ := hDesc
    obtain ⟨j, hj⟩ := hcb
    have hab : OccursAt (j + 1) a b := by
      cases a
      exact OccursAt.child hc hj
    have hkb : OccursAt (k + (j + 1)) t b := occursAt_trans hk hab
    have hxa : a.data ∈ atDepthT t k := occursAt_atDepth hk
    have hxb : b.data ∈ atDepthT t (k + (j + 1)) := occursAt_atDepth hkb
    have hh : k + (j + 1) < heightT t := occursAt_height hkb
    obtain ⟨l1, l2, l3, hsplit⟩ :=
      joinRev_pair_split (f := atDepthT t) (heightT t) (by omega) hh hxb hxa
    have hdel : pushTraceDel t =
        (((List.range (heightT t)).reverse.map (atDepthT t)).flatMap id).filter
          (fun d => d.action == Action.delete) := by
      simp [pushTraceDel, group_nodes_by_level, List.map_reverse]
    obtain ⟨m1, m2, m3, hm⟩ := filter_split_pair (fun d => d.action == Action.delete)
      hsplit (by simp [hb]) (by simp [ha])
    refine ⟨pushTraceCU t ++ m1, m2, m3, ?_⟩
    rw [pushTrace, hdel, hm]
    simp

theorem push_two_pass_ordering_witness :
    (∃ l1 l2 l3, pushTrace pushWitRoot =
      l1 ++ pushWitA.data :: (l2 ++ pushWitB.data :: l3)) ∧
    (∃ l1 l2 l3, pushTrace pushWitRoot =
      l1 ++ pushWitD.data :: (l2 ++ pushWitC.data :: l3)) :=
  ⟨(push_two_pass_ordering pushWitRoot pushWitA pushWitB
      ⟨1, .child (.head _ _) (.refl _)⟩
      ⟨pushWitB, .head _ _, ⟨0, .refl _⟩⟩).1 (Or.inl rfl) (Or.inl rfl),
   (push_two_pass_ordering pushWitRoot pushWitC pushWitD
      ⟨1, .child (.tail (.head _ _)) (.refl _)⟩
      ⟨pushWitD, .head _ _, ⟨0, .refl _⟩⟩).2 rfl rfl⟩

theorem perform_action_error_handling_witness :
    perform_action
      (fun d => if d.key = "n" then .badRequest "Bad Request: There are no changes."
                else if d.key = "e" then .otherError else .ok 1)
      { key := "n", filepath := "a/n", entity := Entity.suite, action := Action.update } =
      .ok () ∧
    pushRun
      (fun d => if d.key = "n" then .badRequest "Bad Request: There are no changes."
                else if d.key = "e" then .otherError else .ok 1)
      [{ key := "n", filepath := "a/n", entity := Entity.suite, action := Action.update },
       { key := "e", filepath := "a/e", entity := Entity.suite, action := Action.update }] =
      ([{ key := "n", filepath := "a/n", entity := Entity.suite, action := Action.update },
        { key := "e", filepath := "a/e", entity := Entity.suite, action := Action.update }],
       some ()) :=
  ⟨perform_action_error_handling.1 _
      { key := "n", filepath := "a/n", entity := Entity.suite, action := Action.update }
      "Bad Request: There are no changes." (by decide) (by decide),
   perform_action_error_handling.2.2 _
      [{ key := "n", filepath := "a/n", entity := Entity.suite, action := Action.update }]
      { key := "e", filepath := "a/e", entity := Entity.suite, action := Action.update }
      [] (by decide) (by decide)⟩

end Qasetool
